import Mathlib

/-!
Shallow embedding of the BlackTent core pipeline (blacktent_scan.py and
blacktent/redaction.py): the rule-based secret detector `find_secrets`, the
backward-splice redactor `apply_redactions`, the cursor-walk redactor
`_apply_redactions`, the integrity-checked patch replay
`patch_from_manifest_entry`, and the corrupt-manifest recovery of
`_load_manifest`.

Modelling conventions:
- Python `str` text is modelled as `List Char`; offsets are `Int` where the
  source handles untrusted manifest integers, `Nat` internally.
- SHA-256 (`hashlib.sha256(...).hexdigest()`) is not re-implemented; every
  function that calls it takes an explicit parameter
  `shaHex : List Char → List Char`.  The source's `_sha8 s` is
  `(shaHex s).take 8`, exactly as `hexdigest()[:8]`.
- The four regular expressions of `RULES` are hand-translated to explicit
  matchers over ASCII text.  Each matcher computes the match that Python
  `re.finditer` would produce at a given start position: for these
  particular patterns greedy repetition never backtracks successfully
  (every repeated class is a subset of the word characters, so shrinking a
  maximal run can never create a required `\b` boundary, and a quote is
  never a member of the repeated class), so the match is the maximal run
  with the boundary/literal side conditions checked once.  Word characters
  and case folding are modelled for ASCII, matching the ASCII texts the
  rules target.
-/

namespace Blacktent

/-- Word character for the regex `\b` boundary, ASCII fragment of Python `\w`. -/
def isWordChar (c : Char) : Bool := c.isAlphanum || c = '_'

/-- Whitespace for the regex `\s`, ASCII fragment of Python `\s`. -/
def isSpaceChar (c : Char) : Bool :=
  c = ' ' || c = '\t' || c = '\n' || c = '\r' || c = '\x0b' || c = '\x0c'

/-- The single-quote character (written via its code point). -/
def squote : Char := Char.ofNat 39

/-- Member of the regex class `["']`. -/
def isQuote (c : Char) : Bool := c = '"' || c = squote

/-- Member of the regex class `[A-Za-z0-9_\-]` (GENERIC_API_KEY value chars). -/
def isKeyChar (c : Char) : Bool := c.isAlphanum || c = '_' || c = '-'

/-- Character of `text` at offset `i`, a non-word placeholder out of range. -/
def charAt (t : List Char) (i : Nat) : Char := t.getD i ' '

/-- Whether offset `i` is in range and holds a word character. -/
def wordAt (t : List Char) (i : Nat) : Bool := i < t.length && isWordChar (charAt t i)

/-- The regex `\b` word-boundary test between offsets `i-1` and `i`. -/
def atB (t : List Char) (i : Nat) : Bool :=
  (decide (0 < i) && wordAt t (i - 1)) != wordAt t i

/-- Literal match of `s` at offset `i` of `t`. -/
def litAt (t : List Char) (i : Nat) (s : List Char) : Bool :=
  (t.drop i).take s.length == s

/-- Case-insensitive (ASCII) literal match of lowercase `s` at offset `i`. -/
def litAtCI (t : List Char) (i : Nat) (s : List Char) : Bool :=
  ((t.drop i).take s.length).map Char.toLower == s

/-- Length of the maximal run of characters satisfying `p` from offset `i`. -/
def runFrom (p : Char → Bool) (t : List Char) (i : Nat) : Nat :=
  ((t.drop i).takeWhile p).length

/-- Python slice `t[a:b]` for `0 ≤ a ≤ b` (clamping at the end of the list). -/
def sliceN (t : List Char) (a b : Nat) : List Char := (t.drop a).take (b - a)

/-- Match of `\bsk-[A-Za-z0-9]{20,}\b` (rule OPENAI_KEY) at offset `i`:
returns `(span start, span end, match end)` like `m.span()` and `m.end()`. -/
def matchOPENAI (t : List Char) (i : Nat) : Option (Nat × Nat × Nat) :=
  if atB t i && litAt t i "sk-".toList then
    let r := runFrom Char.isAlphanum t (i + 3)
    if 20 ≤ r ∧ atB t (i + 3 + r) then some (i, i + 3 + r, i + 3 + r) else none
  else none

/-- Match of `\bghp_[A-Za-z0-9]{20,}\b` (rule GITHUB_TOKEN) at offset `i`. -/
def matchGITHUB (t : List Char) (i : Nat) : Option (Nat × Nat × Nat) :=
  if atB t i && litAt t i "ghp_".toList then
    let r := runFrom Char.isAlphanum t (i + 4)
    if 20 ≤ r ∧ atB t (i + 4 + r) then some (i, i + 4 + r, i + 4 + r) else none
  else none

/-- End offset of the keyword alternation `(?:api[_-]?key|token)` (with
IGNORECASE) when it matches at offset `i`. -/
def genericKeyword (t : List Char) (i : Nat) : Option Nat :=
  if litAtCI t i "api".toList then
    if (charAt t (i + 3) = '_' ∨ charAt t (i + 3) = '-') ∧ litAtCI t (i + 4) "key".toList then
      some (i + 7)
    else if litAtCI t (i + 3) "key".toList then some (i + 6)
    else none
  else if litAtCI t i "token".toList then some (i + 5)
  else none

/-- Match of rule GENERIC_API_KEY,
`\b(?:api[_-]?key|token)\b\s*[:=]\s*["']?([A-Za-z0-9_\-]{16,})["']?` with
IGNORECASE, at offset `i`.  The finding span is that of capture group 1
(the source takes `m.span(1)`); the match end includes the optional
trailing quote. -/
def matchGENERIC (t : List Char) (i : Nat) : Option (Nat × Nat × Nat) :=
  if atB t i then
    match genericKeyword t i with
    | none => none
    | some k =>
      if atB t k then
        let w1 := runFrom isSpaceChar t k
        if k + w1 < t.length ∧ (charAt t (k + w1) = ':' ∨ charAt t (k + w1) = '=') then
          let w2 := runFrom isSpaceChar t (k + w1 + 1)
          let q := k + w1 + 1 + w2
          let g := if q < t.length ∧ isQuote (charAt t q) then q + 1 else q
          let r := runFrom isKeyChar t g
          if 16 ≤ r then
            let me := if g + r < t.length ∧ isQuote (charAt t (g + r)) then g + r + 1 else g + r
            some (g, g + r, me)
          else none
        else none
      else none
  else none

/-- Match of rule PASSWORD, `\bpassword\b\s*[:=]\s*["']([^"']{4,})["']` with
IGNORECASE, at offset `i`.  The finding span is that of capture group 1;
the match end includes the closing quote. -/
def matchPASSWORD (t : List Char) (i : Nat) : Option (Nat × Nat × Nat) :=
  if atB t i && litAtCI t i "password".toList && atB t (i + 8) then
    let w1 := runFrom isSpaceChar t (i + 8)
    if i + 8 + w1 < t.length ∧ (charAt t (i + 8 + w1) = ':' ∨ charAt t (i + 8 + w1) = '=') then
      let w2 := runFrom isSpaceChar t (i + 8 + w1 + 1)
      let q := i + 8 + w1 + 1 + w2
      if q < t.length ∧ isQuote (charAt t q) then
        let r := runFrom (fun c => !isQuote c) t (q + 1)
        if 4 ≤ r ∧ q + 1 + r < t.length then some (q + 1, q + 1 + r, q + 1 + r + 1) else none
      else none
    else none
  else none

/-- One step list of `re.finditer` spans: scan positions left to right,
emitting each match's finding span and continuing at the match end (our
patterns never produce empty matches, so the `i + 1` fallback of Python's
empty-match rule is never the smaller continuation).  `fuel` bounds the
recursion; `finditerSpans` supplies enough for the whole text. -/
def scanRule (m : List Char → Nat → Option (Nat × Nat × Nat)) (t : List Char) :
    Nat → Nat → List (Nat × Nat)
  | 0, _ => []
  | fuel + 1, i =>
    if i < t.length then
      match m t i with
      | none => scanRule m t fuel (i + 1)
      | some (s, e, me) => (s, e) :: scanRule m t fuel (if i < me then me else i + 1)
    else []

/-- All finding spans of one rule over `t`, in `re.finditer` order. -/
def finditerSpans (m : List Char → Nat → Option (Nat × Nat × Nat)) (t : List Char) :
    List (Nat × Nat) :=
  scanRule m t (t.length + 1) 0

/-- The `Finding` dataclass of blacktent_scan.py.  The Python field `end` is
a Lean keyword and is called `stop` here.  Offsets are `Int` because replay
reads them from an untrusted manifest (`int(f["start"])`). -/
structure Finding where
  rule : String
  start : Int
  stop : Int
  replacement : List Char
  match_len : Int
  match_sha256 : List Char
deriving DecidableEq, Repr

/-- The redaction token `[REDACTED:<RULE_NAME>:<digest>]`. -/
def mkToken (rname : String) (sha8 : List Char) : List Char :=
  "[REDACTED:".toList ++ (rname.toList ++ (':' :: (sha8 ++ [']'])))

/-- Candidate findings of a single rule: each finditer span becomes a
`Finding` exactly as in the source loop (`secret` is the text of the span;
empty secrets are skipped; `_sha8 secret = hexdigest[:8]`). -/
def ruleCandidates (shaHex : List Char → List Char) (rname : String)
    (m : List Char → Nat → Option (Nat × Nat × Nat)) (t : List Char) : List Finding :=
  (finditerSpans m t).filterMap fun se =>
    let secret := sliceN t se.1 se.2
    if secret = [] then none
    else some
      { rule := rname, start := (se.1 : Int), stop := (se.2 : Int)
        replacement := mkToken rname ((shaHex secret).take 8)
        match_len := (se.2 : Int) - (se.1 : Int)
        match_sha256 := shaHex secret }

/-- All candidate findings, accumulated over `RULES` in rule order. -/
def scanCandidates (shaHex : List Char → List Char) (t : List Char) : List Finding :=
  ruleCandidates shaHex "OPENAI_KEY" matchOPENAI t
    ++ ruleCandidates shaHex "GITHUB_TOKEN" matchGITHUB t
    ++ ruleCandidates shaHex "GENERIC_API_KEY" matchGENERIC t
    ++ ruleCandidates shaHex "PASSWORD" matchPASSWORD t

/-- The Python sort key comparison `(f.start, -(f.end - f.start))`,
lexicographically. -/
def keyLE (f g : Finding) : Prop :=
  f.start < g.start ∨ (f.start = g.start ∧ g.stop - g.start ≤ f.stop - f.start)

instance : DecidableRel keyLE := fun f g => by unfold keyLE; infer_instance

/-- Stable insertion for `sortKey`: a new element goes before the first
element whose key is not smaller, i.e. after every earlier element with an
equal key — the stability guarantee of Python `list.sort`. -/
def insKey (x : Finding) : List Finding → List Finding
  | [] => [x]
  | y :: ys => if keyLE x y then x :: y :: ys else y :: insKey x ys

/-- Stable sort by `(start, -(length))`, as `findings.sort(key=...)`. -/
def sortKey : List Finding → List Finding
  | [] => []
  | x :: xs => insKey x (sortKey xs)

/-- The overlap sweep of `find_secrets`: keep a finding only when its start
is not below the running `last_end`; on acceptance move `last_end` to its
end. -/
def sweepGo : Int → List Finding → List Finding
  | _, [] => []
  | lastEnd, f :: fs =>
    if f.start < lastEnd then sweepGo lastEnd fs else f :: sweepGo f.stop fs

/-- The detector `find_secrets`: collect candidates per rule, sort by
`(start, -(length))`, sweep overlaps with `last_end = -1`. -/
def find_secrets (shaHex : List Char → List Char) (t : List Char) : List Finding :=
  sweepGo (-1) (sortKey (scanCandidates shaHex t))

/-- One splice `out[:f.start] + f.replacement + out[f.end:]`.  Offsets are
taken non-negative (the detector produces non-negative offsets and replay
validates `start < 0` before splicing; Python's negative-index wrap-around
is not modelled). -/
def splice (out : List Char) (f : Finding) : List Char :=
  out.take f.start.toNat ++ f.replacement ++ out.drop f.stop.toNat

/-- Stable insertion for the descending-start sort of `sorted(...,
key=start, reverse=True)`: an element inserted later (hence earlier in the
original list) goes before every element with an equal start. -/
def insDesc (x : Finding) : List Finding → List Finding
  | [] => [x]
  | y :: ys => if y.start ≤ x.start then x :: y :: ys else y :: insDesc x ys

/-- Stable sort by start, descending. -/
def sortStartDesc : List Finding → List Finding
  | [] => []
  | x :: xs => insDesc x (sortStartDesc xs)

/-- The redactor `apply_redactions`: splice from end to start so offsets
remain valid. -/
def apply_redactions (t : List Char) (fs : List Finding) : List Char :=
  (sortStartDesc fs).foldl splice t

/-- The cursor walk of `_apply_redactions` (blacktent/redaction.py): emit
`text[cursor:r.start]` (only when `r.start > cursor`), then the
replacement, advance the cursor to `r.end`; emit the `text[cursor:]` tail
when `cursor < len(text)`. -/
def cursorGo (t : List Char) : Nat → List Finding → List Char
  | c, [] => if c < t.length then t.drop c else []
  | c, r :: rs =>
    (if c < r.start.toNat then sliceN t c r.start.toNat else [])
      ++ r.replacement ++ cursorGo t r.stop.toNat rs

/-- The redactor `_apply_redactions` of blacktent/redaction.py, over the
same finding shape (it reads only `start`, `end`, `replacement`). -/
def cursorApply (t : List Char) (rs : List Finding) : List Char :=
  if rs = [] then t else cursorGo t 0 rs

/-- Replay skip reason `skip: invalid span {start}:{end}`. -/
def spanReason (s e : Int) : String :=
  "skip: invalid span " ++ toString s ++ ":" ++ toString e

/-- Replay skip reason `skip: length mismatch at {start}:{end}`. -/
def lenReason (s e : Int) : String :=
  "skip: length mismatch at " ++ toString s ++ ":" ++ toString e

/-- Replay skip reason `skip: sha mismatch at {start}:{end}`. -/
def shaReason (s e : Int) : String :=
  "skip: sha mismatch at " ++ toString s ++ ":" ++ toString e

/-- The replay loop of `patch_from_manifest_entry` over the
descending-sorted findings: returns `(out, applied, skipped, reasons)`.
Each finding is bounds-checked, length-checked against `match_len`, and
hash-checked against `match_sha256` when one is recorded (Python's truthy
test on the string: the empty string means no recorded hash); only then is
its span spliced. -/
def patchGo (shaHex : List Char → List Char) :
    List Char → List Finding → List Char × Nat × Nat × List String
  | out, [] => (out, 0, 0, [])
  | out, f :: fs =>
    if f.start < 0 ∨ (out.length : Int) < f.stop ∨ f.stop ≤ f.start then
      let r := patchGo shaHex out fs
      (r.1, r.2.1, r.2.2.1 + 1, spanReason f.start f.stop :: r.2.2.2)
    else
      let cand := sliceN out f.start.toNat f.stop.toNat
      if (cand.length : Int) ≠ f.match_len then
        let r := patchGo shaHex out fs
        (r.1, r.2.1, r.2.2.1 + 1, lenReason f.start f.stop :: r.2.2.2)
      else if f.match_sha256 ≠ [] ∧ shaHex cand ≠ f.match_sha256 then
        let r := patchGo shaHex out fs
        (r.1, r.2.1, r.2.2.1 + 1, shaReason f.start f.stop :: r.2.2.2)
      else
        let r := patchGo shaHex (splice out f) fs
        (r.1, r.2.1 + 1, r.2.2.1, r.2.2.2)

/-- The replay report (the `input` passthrough field of the source dict
carries no behaviour and is omitted). -/
structure PatchReport where
  applied : Nat
  skipped : Nat
  notes : List String
deriving DecidableEq, Repr

/-- `patch_from_manifest_entry`: sort the entry's findings by start,
descending, run the checked replay loop, cap the notes at 25 entries
(`reasons[:25]`). -/
def patch_from_manifest_entry (shaHex : List Char → List Char)
    (original : List Char) (findings : List Finding) : List Char × PatchReport :=
  let r := patchGo shaHex original (sortStartDesc findings)
  (r.1, { applied := r.2.1, skipped := r.2.2.1, notes := r.2.2.2.take 25 })

/-- Manifest record shape of blacktent/redaction.py:
`{"version": 1, "created_at": ..., "files": [...]}`.  The entry type is a
parameter: entries are opaque to loading. -/
structure ManifestRec (α : Type) where
  version : Nat
  created_at : String
  files : List α
deriving DecidableEq, Repr

/-- The fresh manifest created on a missing or corrupt manifest file. -/
def freshManifest {α : Type} (now : String) : ManifestRec α :=
  { version := 1, created_at := now, files := [] }

/-- Index of the last occurrence of `c` in `l`. -/
def lastIdx (c : Char) : List Char → Option Nat
  | [] => none
  | x :: xs =>
    match lastIdx c xs with
    | some j => some (j + 1)
    | none => if x = c then some 0 else none

/-- Split a path at the last occurrence of `c` into (directory part
including the separator, name). -/
def splitLast (c : Char) (p : List Char) : List Char × List Char :=
  match lastIdx c p with
  | some i => (p.take (i + 1), p.drop (i + 1))
  | none => ([], p)

/-- Python `PurePath` stem of a name: drop the suffix, which pathlib takes
to start at the last dot provided that dot is neither the first nor the
last character of the name. -/
def stemOf (name : List Char) : List Char :=
  match lastIdx '.' name with
  | some i => if 0 < i ∧ i + 1 < name.length then name.take i else name
  | none => name

/-- Python `Path(p).with_suffix(".corrupt.json")`: the name (after the last
path separator) drops its suffix and gains `.corrupt.json`. -/
def withSuffixCorrupt (p : List Char) : List Char :=
  (splitLast '/' p).1 ++ stemOf (splitLast '/' p).2 ++ ".corrupt.json".toList

/-- File rename as a transformation of a path-to-contents map (`os.rename`
semantics: the destination takes the source's bytes, the source is gone). -/
def renameFile (src dst : List Char) (fs : List Char → Option (List Char)) :
    List Char → Option (List Char) :=
  fun q => if q = dst then fs src else if q = src then none else fs q

/-- The manifest loader `_load_manifest` of blacktent/redaction.py over the
filesystem model: a missing file yields a fresh manifest; parseable
contents (`parse` stands for `json.load`) yield the parsed manifest;
anything else — the `except Exception` arm — renames the file aside to the
`.corrupt.json` name and yields a fresh manifest.  The pair returned is
(result, filesystem after the call). -/
def load_manifest_recovering {α : Type} (parse : List Char → Option (ManifestRec α))
    (now : String) (fs : List Char → Option (List Char)) (p : List Char) :
    ManifestRec α × (List Char → Option (List Char)) :=
  match fs p with
  | none => (freshManifest now, fs)
  | some bytes =>
    match parse bytes with
    | some m => (m, fs)
    | none => (freshManifest now, renameFile p (withSuffixCorrupt p) fs)

/-! ### Slice lemmas -/

theorem sliceN_getElem? (t : List Char) (a b j : Nat) :
    (sliceN t a b)[j]? = if j < b - a then t[a + j]? else none := by
  unfold sliceN
  rcases Nat.lt_or_ge j (b - a) with h | h
  · rw [List.getElem?_take_of_lt h, List.getElem?_drop, if_pos h]
  · rw [if_neg (by omega), List.getElem?_eq_none]
    have := List.length_take (b - a) (t.drop a)
    omega

theorem sliceN_length {t : List Char} {a b : Nat} (hab : a ≤ b) (hb : b ≤ t.length) :
    (sliceN t a b).length = b - a := by
  unfold sliceN
  rw [List.length_take, List.length_drop]
  omega

theorem sliceN_prefix {t B : List Char} {k a b : Nat} (hb : b ≤ k) (hk : k ≤ t.length) :
    sliceN (t.take k ++ B) a b = sliceN t a b := by
  apply List.ext_getElem?
  intro j
  rw [sliceN_getElem?, sliceN_getElem?]
  by_cases h : j < b - a
  · rw [if_pos h, if_pos h, List.getElem?_append_left, List.getElem?_take_of_lt]
    · omega
    · rw [List.length_take]
      omega
  · rw [if_neg h, if_neg h]

theorem sliceN_set_outside {t : List Char} {p a b : Nat} {c : Char}
    (h : p < a ∨ b ≤ p) : sliceN (t.set p c) a b = sliceN t a b := by
  apply List.ext_getElem?
  intro j
  rw [sliceN_getElem?, sliceN_getElem?]
  by_cases hj : j < b - a
  · rw [if_pos hj, if_pos hj, List.getElem?_set_ne (by omega)]
  · rw [if_neg hj, if_neg hj]

/-! ### Sort lemmas: the stable key sort and the descending start sort -/

theorem keyLE_total (f g : Finding) : keyLE f g ∨ keyLE g f := by
  unfold keyLE
  omega

theorem keyLE_trans {f g h : Finding} (h1 : keyLE f g) (h2 : keyLE g h) : keyLE f h := by
  unfold keyLE at *
  omega

theorem mem_insKey {a x : Finding} {l : List Finding} :
    a ∈ insKey x l ↔ a = x ∨ a ∈ l := by
  induction l with
  | nil => simp [insKey]
  | cons y ys ih =>
    by_cases h : keyLE x y
    · simp [insKey, if_pos h]
    · simp [insKey, if_neg h, ih]
      tauto

theorem perm_insKey (x : Finding) (l : List Finding) : List.Perm (insKey x l) (x :: l) := by
  induction l with
  | nil => rfl
  | cons y ys ih =>
    by_cases h : keyLE x y
    · simp [insKey, if_pos h]
    · simp only [insKey, if_neg h]
      exact (ih.cons y).trans (List.Perm.swap x y ys)

theorem perm_sortKey (l : List Finding) : List.Perm (sortKey l) l := by
  induction l with
  | nil => rfl
  | cons x xs ih => exact (perm_insKey x (sortKey xs)).trans (ih.cons x)

theorem pairwise_insKey {x : Finding} {l : List Finding}
    (h : l.Pairwise keyLE) : (insKey x l).Pairwise keyLE := by
  induction l with
  | nil => simp [insKey]
  | cons y ys ih =>
    rcases List.pairwise_cons.mp h with ⟨hy, hys⟩
    by_cases hxy : keyLE x y
    · simp only [insKey, if_pos hxy]
      refine List.pairwise_cons.mpr ⟨?_, h⟩
      intro z hz
      rcases List.mem_cons.mp hz with rfl | hz
      · exact hxy
      · exact keyLE_trans hxy (hy z hz)
    · simp only [insKey, if_neg hxy]
      refine List.pairwise_cons.mpr ⟨?_, ih hys⟩
      intro z hz
      rcases mem_insKey.mp hz with rfl | hz
      · exact (keyLE_total _ _).resolve_left hxy
      · exact hy z hz

theorem pairwise_sortKey (l : List Finding) : (sortKey l).Pairwise keyLE := by
  induction l with
  | nil => simp [sortKey]
  | cons x xs ih => exact pairwise_insKey ih

theorem filter_insKey (p : Finding → Bool) {x : Finding} {l : List Finding}
    (hcl : ∀ a b : Finding, p a = true → p b = true → keyLE a b) :
    (insKey x l).filter p = if p x then x :: l.filter p else l.filter p := by
  induction l with
  | nil => cases hpx : p x <;> simp [insKey, List.filter, hpx]
  | cons y ys ih =>
    by_cases hxy : keyLE x y
    · cases hpx : p x <;> simp [insKey, if_pos hxy, List.filter, hpx]
    · have hpy2 : ¬(p x = true ∧ p y = true) := fun ⟨ha, hb⟩ => hxy (hcl x y ha hb)
      simp only [insKey, if_neg hxy, List.filter_cons]
      cases hpy : p y with
      | true =>
        have hpx : p x = false := by
          cases hqx : p x
          · rfl
          · exact absurd ⟨hqx, hpy⟩ hpy2
        simp [ih, hpx]
      | false => simp [ih]

theorem filter_sortKey (p : Finding → Bool) (l : List Finding)
    (hcl : ∀ a b : Finding, p a = true → p b = true → keyLE a b) :
    (sortKey l).filter p = l.filter p := by
  induction l with
  | nil => rfl
  | cons x xs ih =>
    rw [sortKey, filter_insKey p hcl, List.filter_cons]
    cases hpx : p x <;> simp [ih, hpx]

theorem mem_insDesc {a x : Finding} {l : List Finding} :
    a ∈ insDesc x l ↔ a = x ∨ a ∈ l := by
  induction l with
  | nil => simp [insDesc]
  | cons y ys ih =>
    by_cases h : y.start ≤ x.start
    · simp [insDesc, if_pos h]
    · simp [insDesc, if_neg h, ih]
      tauto

theorem perm_insDesc (x : Finding) (l : List Finding) : List.Perm (insDesc x l) (x :: l) := by
  induction l with
  | nil => rfl
  | cons y ys ih =>
    by_cases h : y.start ≤ x.start
    · simp [insDesc, if_pos h]
    · simp only [insDesc, if_neg h]
      exact (ih.cons y).trans (List.Perm.swap x y ys)

theorem perm_sortStartDesc (l : List Finding) : List.Perm (sortStartDesc l) l := by
  induction l with
  | nil => rfl
  | cons x xs ih => exact (perm_insDesc x (sortStartDesc xs)).trans (ih.cons x)

theorem insDesc_sink {x : Finding} {l : List Finding}
    (h : ∀ y ∈ l, x.start < y.start) : insDesc x l = l ++ [x] := by
  induction l with
  | nil => rfl
  | cons y ys ih =>
    have hy : x.start < y.start := h y (List.mem_cons_self y ys)
    rw [insDesc, if_neg (by omega), ih fun z hz => h z (List.mem_cons_of_mem y hz)]
    rfl

theorem sortStartDesc_of_ascending {l : List Finding}
    (h : l.Pairwise fun a b => a.start < b.start) : sortStartDesc l = l.reverse := by
  induction l with
  | nil => rfl
  | cons x xs ih =>
    rcases List.pairwise_cons.mp h with ⟨hx, hxs⟩
    rw [sortStartDesc, ih hxs, insDesc_sink, List.reverse_cons]
    intro y hy
    exact hx y (List.mem_reverse.mp hy)

/-! ### Sweep lemmas -/

theorem sweepGo_sublist (lastEnd : Int) (l : List Finding) :
    (sweepGo lastEnd l).Sublist l := by
  induction l generalizing lastEnd with
  | nil => simp [sweepGo]
  | cons f fs ih =>
    by_cases h : f.start < lastEnd
    · simp only [sweepGo, if_pos h]
      exact (ih lastEnd).trans (List.sublist_cons_self f fs)
    · simp only [sweepGo, if_neg h]
      exact (ih f.stop).cons₂ f

theorem sweepGo_bound {l : List Finding} (hse : ∀ x ∈ l, x.start < x.stop)
    (lastEnd : Int) : ∀ y ∈ sweepGo lastEnd l, lastEnd ≤ y.start := by
  induction l generalizing lastEnd with
  | nil => simp [sweepGo]
  | cons f fs ih =>
    have hse' : ∀ x ∈ fs, x.start < x.stop := fun x hx => hse x (List.mem_cons_of_mem f hx)
    by_cases h : f.start < lastEnd
    · simpa [sweepGo, if_pos h] using ih hse' lastEnd
    · simp only [sweepGo, if_neg h]
      intro y hy
      rcases List.mem_cons.mp hy with rfl | hy
      · omega
      · have h1 := ih hse' f.stop y hy
        have h2 := hse f (List.mem_cons_self f fs)
        omega

theorem sweepGo_pairwise {l : List Finding} (hse : ∀ x ∈ l, x.start < x.stop)
    (lastEnd : Int) :
    (sweepGo lastEnd l).Pairwise fun a b => a.stop ≤ b.start := by
  induction l generalizing lastEnd with
  | nil => simp [sweepGo]
  | cons f fs ih =>
    have hse' : ∀ x ∈ fs, x.start < x.stop := fun x hx => hse x (List.mem_cons_of_mem f hx)
    by_cases h : f.start < lastEnd
    · simpa [sweepGo, if_pos h] using ih hse' lastEnd
    · simp only [sweepGo, if_neg h]
      exact List.pairwise_cons.mpr ⟨fun y hy => sweepGo_bound hse' f.stop y hy, ih hse' f.stop⟩

theorem sweepGo_kill {l : List Finding} (hse : ∀ x ∈ l, x.start < x.stop)
    {g : Finding} (hg : g ∈ l) {lastEnd : Int} (hlt : g.start < lastEnd) :
    g ∉ sweepGo lastEnd l := by
  induction l generalizing lastEnd with
  | nil => simp [sweepGo]
  | cons f fs ih =>
    have hse' : ∀ x ∈ fs, x.start < x.stop := fun x hx => hse x (List.mem_cons_of_mem f hx)
    by_cases h : f.start < lastEnd
    · simp only [sweepGo, if_pos h]
      rcases List.mem_cons.mp hg with rfl | hg'
      · intro hmem
        exact absurd ((sweepGo_sublist lastEnd fs).mem hmem)
          (fun hmem' => (ih hse' hmem' hlt) hmem)
      · exact ih hse' hg' hlt
    · simp only [sweepGo, if_neg h]
      have hgf : g ≠ f := fun hgf => h (hgf ▸ hlt)
      intro hmem
      rcases List.mem_cons.mp hmem with rfl | hmem'
      · exact hgf rfl
      · have hgfs : g ∈ fs := (List.mem_cons.mp hg).resolve_left hgf
        have hf := hse f (List.mem_cons_self f fs)
        exact ih hse' hgfs (by omega) hmem'

theorem sweepGo_kept_or_overlapped {l : List Finding}
    (hasc : l.Pairwise fun a b => a.start ≤ b.start)
    {f : Finding} (hf : f ∈ l) {lastEnd : Int} (hle : lastEnd ≤ f.start)
    (hnot : f ∉ sweepGo lastEnd l) :
    ∃ h ∈ sweepGo lastEnd l, h ≠ f ∧ h.start ≤ f.start ∧ f.start < h.stop := by
  induction l generalizing lastEnd with
  | nil => exact absurd hf (List.not_mem_nil f)
  | cons x xs ih =>
    rcases List.pairwise_cons.mp hasc with ⟨hx, hxs⟩
    by_cases h : x.start < lastEnd
    · simp only [sweepGo, if_pos h] at hnot ⊢
      rcases List.mem_cons.mp hf with rfl | hf'
      · omega
      · exact ih hxs hf' hle hnot
    · simp only [sweepGo, if_neg h] at hnot ⊢
      rcases List.mem_cons.mp hf with rfl | hf'
      · exact absurd (List.mem_cons_self f _) hnot
      · have hnot' : f ∉ sweepGo x.stop xs := fun hmem => hnot (List.mem_cons_of_mem x hmem)
        by_cases hov : f.start < x.stop
        · refine ⟨x, List.mem_cons_self x _, ?_, hx f hf', hov⟩
          intro hxf
          exact hnot (hxf ▸ List.mem_cons_self x _)
        · rcases ih hxs hf' (by omega) hnot' with ⟨h2, hh1, hh2, hh3, hh4⟩
          exact ⟨h2, List.mem_cons_of_mem x hh1, hh2, hh3, hh4⟩

theorem sweepGo_shorter_killed {l : List Finding}
    (hsort : l.Pairwise keyLE) (hse : ∀ x ∈ l, x.start < x.stop)
    {f g : Finding} (hf : f ∈ l) (hg : g ∈ l)
    (hstart : f.start = g.start) (hlen : g.stop < f.stop) (lastEnd : Int) :
    g ∉ sweepGo lastEnd l := by
  induction l generalizing lastEnd with
  | nil => exact absurd hg (List.not_mem_nil g)
  | cons x xs ih =>
    rcases List.pairwise_cons.mp hsort with ⟨hxall, hxs⟩
    have hse' : ∀ y ∈ xs, y.start < y.stop := fun y hy => hse y (List.mem_cons_of_mem x hy)
    have hfg : f ≠ g := fun hfg => by rw [hfg] at hlen; omega
    by_cases h : x.start < lastEnd
    · simp only [sweepGo, if_pos h]
      rcases List.mem_cons.mp hg with rfl | hg'
      · intro hmem
        have hgxs : g ∈ xs := (sweepGo_sublist lastEnd xs).mem hmem
        exact sweepGo_kill hse' hgxs h hmem
      · rcases List.mem_cons.mp hf with rfl | hf'
        · exact sweepGo_kill hse' hg' (by omega)
        · exact ih hxs hse' hf' hg' lastEnd
    · simp only [sweepGo, if_neg h]
      rcases List.mem_cons.mp hg with rfl | hg'
      · -- the head cannot be `g`: `f` would come later with an equal start
        -- but a longer span, contradicting the sort key order
        have hfxs : f ∈ xs := (List.mem_cons.mp hf).resolve_left fun hfx => hfg hfx
        have := hxall f hfxs
        unfold keyLE at this
        omega
      · have hgx : g ≠ x := by
          intro hgx
          have hfxs : f ∈ xs := by
            rcases List.mem_cons.mp hf with rfl | hf'
            · exact absurd rfl (hgx ▸ hfg)
            · exact hf'
          have := hxall f hfxs
          rw [hgx] at hstart hlen
          unfold keyLE at this
          omega
        intro hmem
        rcases List.mem_cons.mp hmem with rfl | hmem'
        · exact hgx rfl
        · rcases List.mem_cons.mp hf with rfl | hf'
          · have hfe := hse f (List.mem_cons_self f xs)
            exact sweepGo_kill hse' hg' (by omega) hmem'
          · exact ih hxs hse' hf' hg' x.stop hmem'

theorem sweepGo_stable_killed {f g : Finding} {l P1 P2 : List Finding}
    (hse : ∀ x ∈ l, x.start < x.stop)
    (hfilter : l.filter (fun h => h.start = f.start ∧ h.stop = f.stop) = P1 ++ f :: P2)
    (hg2 : g ∈ P2) (hg1 : g ∉ P1) (hgf : g ≠ f) (lastEnd : Int) :
    g ∉ sweepGo lastEnd l := by
  induction l generalizing P1 lastEnd with
  | nil => simp at hfilter
  | cons x xs ih =>
    have hse' : ∀ y ∈ xs, y.start < y.stop := fun y hy => hse y (List.mem_cons_of_mem x hy)
    have hgfil : g ∈ (x :: xs).filter (fun h => h.start = f.start ∧ h.stop = f.stop) := by
      rw [hfilter]
      exact List.mem_append_right _ (List.mem_cons_of_mem f hg2)
    have hpredg : g.start = f.start ∧ g.stop = f.stop := by
      simpa using List.of_mem_filter hgfil
    have hgl : g ∈ x :: xs := List.mem_of_mem_filter hgfil
    by_cases hpx : x.start = f.start ∧ x.stop = f.stop
    · rw [List.filter_cons_of_pos (by simpa using hpx)] at hfilter
      cases P1 with
      | nil =>
        simp only [List.nil_append, List.cons.injEq] at hfilter
        obtain ⟨hxf, hrest⟩ := hfilter
        subst hxf
        have hgxs : g ∈ xs := (List.mem_cons.mp hgl).resolve_left hgf
        by_cases h : x.start < lastEnd
        · simp only [sweepGo, if_pos h]
          exact sweepGo_kill hse' hgxs (by omega)
        · simp only [sweepGo, if_neg h]
          have hxe := hse x (List.mem_cons_self x xs)
          intro hmem
          rcases List.mem_cons.mp hmem with rfl | hmem'
          · exact hgf rfl
          · exact sweepGo_kill hse' hgxs (by omega) hmem'
      | cons p ps =>
        simp only [List.cons_append, List.cons.injEq] at hfilter
        obtain ⟨hxp, hrest⟩ := hfilter
        subst hxp
        have hg1' : g ∉ ps := fun hgp => hg1 (List.mem_cons_of_mem x hgp)
        have hgx : g ≠ x := fun hgx => hg1 (hgx ▸ List.mem_cons_self x ps)
        by_cases h : x.start < lastEnd
        · simp only [sweepGo, if_pos h]
          exact ih hse' hrest hg1' lastEnd
        · simp only [sweepGo, if_neg h]
          intro hmem
          rcases List.mem_cons.mp hmem with rfl | hmem'
          · exact hgx rfl
          · exact ih hse' hrest hg1' x.stop hmem'
    · rw [List.filter_cons_of_neg (by simpa using hpx)] at hfilter
      have hgx : g ≠ x := fun hgx => hpx (hgx ▸ hpredg)
      by_cases h : x.start < lastEnd
      · simp only [sweepGo, if_pos h]
        exact ih hse' hfilter hg1 lastEnd
      · simp only [sweepGo, if_neg h]
        intro hmem
        rcases List.mem_cons.mp hmem with rfl | hmem'
        · exact hgx rfl
        · exact ih hse' hfilter hg1 x.stop hmem'

/-! ### Matcher and candidate validity -/

theorem litAt_length_le {t s : List Char} {i : Nat} (h : litAt t i s = true) :
    s.length ≤ t.length - i := by
  unfold litAt at h
  have h2 := congrArg List.length (by simpa using h : (t.drop i).take s.length = s)
  simp only [List.length_take, List.length_drop] at h2
  omega

theorem litAtCI_length_le {t s : List Char} {i : Nat} (h : litAtCI t i s = true) :
    s.length ≤ t.length - i := by
  unfold litAtCI at h
  have h2 := congrArg List.length
    (by simpa using h : ((t.drop i).take s.length).map Char.toLower = s)
  simp only [List.length_map, List.length_take, List.length_drop] at h2
  omega

theorem runFrom_le (p : Char → Bool) (t : List Char) (i : Nat) :
    runFrom p t i ≤ t.length - i := by
  unfold runFrom
  have h1 := (List.takeWhile_sublist (l := t.drop i) p).length_le
  simp only [List.length_drop] at h1
  exact h1

theorem matchOPENAI_valid {t : List Char} {i s e me : Nat}
    (h : matchOPENAI t i = some (s, e, me)) : s < e ∧ e ≤ t.length := by
  simp only [matchOPENAI] at h
  split at h
  next hc1 =>
    split at h
    next hc2 =>
      simp only [Option.some.injEq, Prod.mk.injEq] at h
      obtain ⟨rfl, rfl, rfl⟩ := h
      have hlit := litAt_length_le (Bool.and_elim_right hc1)
      have hrun := runFrom_le Char.isAlphanum t (i + 3)
      simp only [List.length_cons] at hlit
      constructor
      · omega
      · omega
    next => simp at h
  next => simp at h

theorem matchGITHUB_valid {t : List Char} {i s e me : Nat}
    (h : matchGITHUB t i = some (s, e, me)) : s < e ∧ e ≤ t.length := by
  simp only [matchGITHUB] at h
  split at h
  next hc1 =>
    split at h
    next hc2 =>
      simp only [Option.some.injEq, Prod.mk.injEq] at h
      obtain ⟨rfl, rfl, rfl⟩ := h
      have hlit := litAt_length_le (Bool.and_elim_right hc1)
      have hrun := runFrom_le Char.isAlphanum t (i + 4)
      simp only [List.length_cons] at hlit
      constructor
      · omega
      · omega
    next => simp at h
  next => simp at h

theorem matchGENERIC_valid {t : List Char} {i s e me : Nat}
    (h : matchGENERIC t i = some (s, e, me)) : s < e ∧ e ≤ t.length := by
  simp only [matchGENERIC, Option.ite_none_right_eq_some] at h
  obtain ⟨-, h⟩ := h
  rcases hk : genericKeyword t i with _ | k
  · rw [hk] at h
    simp at h
  · rw [hk] at h
    simp only [Option.ite_none_right_eq_some, Option.some.injEq, Prod.mk.injEq] at h
    obtain ⟨-, -, h16, hs, he, -⟩ := h
    rw [hs] at h16 he
    have hrun := runFrom_le isKeyChar t s
    omega

theorem matchPASSWORD_valid {t : List Char} {i s e me : Nat}
    (h : matchPASSWORD t i = some (s, e, me)) : s < e ∧ e ≤ t.length := by
  simp only [matchPASSWORD] at h
  split at h
  next =>
    split at h
    next =>
      split at h
      next =>
        split at h
        next hr =>
          simp only [Option.some.injEq, Prod.mk.injEq] at h
          obtain ⟨rfl, rfl, rfl⟩ := h
          omega
        next => simp at h
      next => simp at h
    next => simp at h
  next => simp at h

theorem scanRule_mem {m : List Char → Nat → Option (Nat × Nat × Nat)} {t : List Char}
    {se : Nat × Nat} :
    ∀ {fuel i : Nat}, se ∈ scanRule m t fuel i →
      ∃ j me, m t j = some (se.1, se.2, me) := by
  intro fuel
  induction fuel with
  | zero => intro i h; simp [scanRule] at h
  | succ n ih =>
    intro i h
    simp only [scanRule] at h
    split at h
    next =>
      rcases hm : m t i with _ | v
      · rw [hm] at h
        exact ih h
      · obtain ⟨s, e, me⟩ := v
        rw [hm] at h
        rcases List.mem_cons.mp h with rfl | h2
        · exact ⟨i, me, hm⟩
        · exact ih h2
    next => simp at h

theorem ruleCandidates_shape {sha : List Char → List Char} {n : String}
    {m : List Char → Nat → Option (Nat × Nat × Nat)} {t : List Char} {f : Finding}
    (hf : f ∈ ruleCandidates sha n m t) :
    ∃ s e : Nat, (∃ j me, m t j = some (s, e, me)) ∧ sliceN t s e ≠ [] ∧
      f = { rule := n, start := (s : Int), stop := (e : Int),
            replacement := mkToken n ((sha (sliceN t s e)).take 8),
            match_len := (e : Int) - (s : Int),
            match_sha256 := sha (sliceN t s e) } := by
  unfold ruleCandidates at hf
  rcases List.mem_filterMap.mp hf with ⟨se, hse, hmk⟩
  refine ⟨se.1, se.2, scanRule_mem hse, ?_, ?_⟩
  · intro hnil
    rw [hnil] at hmk
    simp at hmk
  · by_cases hnil : sliceN t se.1 se.2 = []
    · rw [hnil] at hmk
      simp at hmk
    · rw [if_neg hnil] at hmk
      exact (Option.some.injEq _ _ ▸ hmk).symm

/-- The rule names of `RULES`, in order. -/
def ruleNames : List String := ["OPENAI_KEY", "GITHUB_TOKEN", "GENERIC_API_KEY", "PASSWORD"]

theorem ruleCandidates_valid {sha : List Char → List Char} {n : String}
    {m : List Char → Nat → Option (Nat × Nat × Nat)} {t : List Char} {f : Finding}
    (hm : ∀ {i s e me : Nat}, m t i = some (s, e, me) → s < e ∧ e ≤ t.length)
    (hf : f ∈ ruleCandidates sha n m t) :
    0 ≤ f.start ∧ f.start < f.stop ∧ f.stop ≤ (t.length : Int) ∧
      f.match_len = f.stop - f.start ∧
      f.match_sha256 = sha (sliceN t f.start.toNat f.stop.toNat) ∧
      f.replacement = mkToken f.rule ((sha (sliceN t f.start.toNat f.stop.toNat)).take 8) ∧
      f.rule = n := by
  obtain ⟨s, e, ⟨j, me, hj⟩, hne, rfl⟩ := ruleCandidates_shape hf
  obtain ⟨hse, hel⟩ := hm hj
  refine ⟨by positivity, ?_, ?_, rfl, ?_, ?_, rfl⟩
  · show (s : Int) < (e : Int)
    exact_mod_cast hse
  · show (e : Int) ≤ (t.length : Int)
    exact_mod_cast hel
  · simp
  · simp

theorem scanCandidates_valid {sha : List Char → List Char} {t : List Char} {f : Finding}
    (hf : f ∈ scanCandidates sha t) :
    0 ≤ f.start ∧ f.start < f.stop ∧ f.stop ≤ (t.length : Int) ∧
      f.match_len = f.stop - f.start ∧
      f.match_sha256 = sha (sliceN t f.start.toNat f.stop.toNat) ∧
      f.replacement = mkToken f.rule ((sha (sliceN t f.start.toNat f.stop.toNat)).take 8) ∧
      f.rule ∈ ruleNames := by
  unfold scanCandidates at hf
  simp only [List.append_assoc, List.mem_append] at hf
  rcases hf with hf | hf | hf | hf
  · have h := ruleCandidates_valid (fun hj => matchOPENAI_valid hj) hf
    exact ⟨h.1, h.2.1, h.2.2.1, h.2.2.2.1, h.2.2.2.2.1, h.2.2.2.2.2.1,
      by rw [h.2.2.2.2.2.2]; simp [ruleNames]⟩
  · have h := ruleCandidates_valid (fun hj => matchGITHUB_valid hj) hf
    exact ⟨h.1, h.2.1, h.2.2.1, h.2.2.2.1, h.2.2.2.2.1, h.2.2.2.2.2.1,
      by rw [h.2.2.2.2.2.2]; simp [ruleNames]⟩
  · have h := ruleCandidates_valid (fun hj => matchGENERIC_valid hj) hf
    exact ⟨h.1, h.2.1, h.2.2.1, h.2.2.2.1, h.2.2.2.2.1, h.2.2.2.2.2.1,
      by rw [h.2.2.2.2.2.2]; simp [ruleNames]⟩
  · have h := ruleCandidates_valid (fun hj => matchPASSWORD_valid hj) hf
    exact ⟨h.1, h.2.1, h.2.2.1, h.2.2.2.1, h.2.2.2.2.1, h.2.2.2.2.2.1,
      by rw [h.2.2.2.2.2.2]; simp [ruleNames]⟩

theorem find_secrets_mem {sha : List Char → List Char} {t : List Char} {f : Finding}
    (hf : f ∈ find_secrets sha t) : f ∈ scanCandidates sha t :=
  (perm_sortKey (scanCandidates sha t)).mem_iff.mp
    ((sweepGo_sublist (-1) (sortKey (scanCandidates sha t))).mem hf)

theorem find_secrets_valid {sha : List Char → List Char} {t : List Char} {f : Finding}
    (hf : f ∈ find_secrets sha t) :
    0 ≤ f.start ∧ f.start < f.stop ∧ f.stop ≤ (t.length : Int) ∧
      f.match_len = f.stop - f.start ∧
      f.match_sha256 = sha (sliceN t f.start.toNat f.stop.toNat) ∧
      f.replacement = mkToken f.rule ((sha (sliceN t f.start.toNat f.stop.toNat)).take 8) ∧
      f.rule ∈ ruleNames :=
  scanCandidates_valid (find_secrets_mem hf)

theorem sortKey_scan_se {sha : List Char → List Char} {t : List Char} :
    ∀ x ∈ sortKey (scanCandidates sha t), x.start < x.stop := fun x hx =>
  (scanCandidates_valid ((perm_sortKey (scanCandidates sha t)).mem_iff.mp hx)).2.1

/-- C4: for every input text, the detector's output has non-decreasing start
offsets and no two returned findings overlap; in particular
`findings[i].end <= findings[i+1].start` holds for every pair, consecutive
or not. -/
theorem detector_order_invariant (sha : List Char → List Char) (t : List Char) :
    ((find_secrets sha t).Pairwise fun a b => a.start ≤ b.start) ∧
    ((find_secrets sha t).Pairwise fun a b => a.stop ≤ b.start) := by
  constructor
  · have hp := (pairwise_sortKey (scanCandidates sha t)).imp
      (fun {a b} h => by unfold keyLE at h; omega : ∀ {a b : Finding}, keyLE a b → a.start ≤ b.start)
    exact hp.sublist (sweepGo_sublist (-1) (sortKey (scanCandidates sha t)))
  · exact sweepGo_pairwise sortKey_scan_se (-1)

/-! ### Replay characterization -/

theorem splice_prefix {t B : List Char} {k : Nat} {f : Finding}
    (hek : f.stop.toNat ≤ k) (hk : k ≤ t.length) (hse : f.start.toNat ≤ f.stop.toNat) :
    splice (t.take k ++ B) f =
      t.take f.start.toNat ++ (f.replacement ++ (sliceN t f.stop.toNat k ++ B)) := by
  unfold splice
  rw [List.take_append_of_le_length (by rw [List.length_take]; omega),
    List.take_take, min_eq_left (by omega),
    List.drop_append_of_le_length (by rw [List.length_take]; omega),
    List.drop_take]
  simp [sliceN, List.append_assoc]

/-- Whether the replay hash check accepts finding `f` against text `t`: the
recorded hash is absent (empty) or matches the hash of the recorded span of
`t`. -/
def goodF (sha : List Char → List Char) (t : List Char) (f : Finding) : Bool :=
  f.match_sha256 == [] || sha (sliceN t f.start.toNat f.stop.toNat) == f.match_sha256

theorem patchGo_characterize (sha : List Char → List Char) (t : List Char) :
    ∀ (fs : List Finding) (k : Nat) (B : List Char),
      k ≤ t.length →
      (∀ f ∈ fs, 0 ≤ f.start ∧ f.start < f.stop ∧ f.stop.toNat ≤ k ∧
        f.match_len = f.stop - f.start) →
      (fs.Pairwise fun a b => b.stop ≤ a.start) →
      patchGo sha (t.take k ++ B) fs =
        ((fs.filter (goodF sha t)).foldl splice (t.take k ++ B),
         (fs.filter (goodF sha t)).length,
         (fs.filter fun f => !goodF sha t f).length,
         (fs.filter fun f => !goodF sha t f).map fun f => shaReason f.start f.stop) := by
  intro fs
  induction fs with
  | nil =>
    intro k B hk hv hd
    simp [patchGo]
  | cons f fs ih =>
    intro k B hk hv hd
    obtain ⟨h0, hse, hek, hml⟩ := hv f (List.mem_cons_self f fs)
    rcases List.pairwise_cons.mp hd with ⟨hall, hd'⟩
    have hlenX : (t.take k ++ B).length = k + B.length := by
      rw [List.length_append, List.length_take]
      omega
    have hc1 : ¬(f.start < 0 ∨ ((t.take k ++ B).length : Int) < f.stop ∨ f.stop ≤ f.start) := by
      rw [hlenX]
      push_neg
      refine ⟨h0, ?_, hse⟩
      push_cast
      omega
    have hcand : sliceN (t.take k ++ B) f.start.toNat f.stop.toNat =
        sliceN t f.start.toNat f.stop.toNat := sliceN_prefix hek hk
    have hclen : ((sliceN (t.take k ++ B) f.start.toNat f.stop.toNat).length : Int) =
        f.match_len := by
      rw [sliceN_length (by omega) (by omega), hml]
      push_cast
      omega
    have hc2 : ¬(((sliceN (t.take k ++ B) f.start.toNat f.stop.toNat).length : Int) ≠
        f.match_len) := fun hne => hne hclen
    by_cases hg : goodF sha t f = true
    · have hc3 : ¬(f.match_sha256 ≠ [] ∧
          sha (sliceN (t.take k ++ B) f.start.toNat f.stop.toNat) ≠ f.match_sha256) := by
        rw [hcand]
        simp only [goodF, Bool.or_eq_true, beq_iff_eq] at hg
        tauto
      simp only [patchGo, if_neg hc1, if_neg hc2, if_neg hc3]
      have hsp := splice_prefix (t := t) (B := B) hek hk (by omega)
      rw [List.filter_cons_of_pos hg, List.filter_cons_of_neg (by simp [hg]),
        List.foldl_cons, hsp]
      rw [ih f.start.toNat (f.replacement ++ (sliceN t f.stop.toNat k ++ B)) (by omega)
        (fun g hg2 => by
          obtain ⟨g0, gse, gek, gml⟩ := hv g (List.mem_cons_of_mem f hg2)
          have hgf := hall g hg2
          exact ⟨g0, gse, by omega, gml⟩)
        hd']
      rw [← hsp]
      simp
    · have hc3 : (f.match_sha256 ≠ [] ∧
          sha (sliceN (t.take k ++ B) f.start.toNat f.stop.toNat) ≠ f.match_sha256) := by
        rw [hcand]
        simp only [goodF, Bool.or_eq_true, beq_iff_eq] at hg
        push_neg at hg
        exact ⟨hg.1, fun h => hg.2 h⟩
      simp only [patchGo, if_neg hc1, if_neg hc2, if_pos hc3]
      rw [List.filter_cons_of_neg (by simp [hg]), List.filter_cons_of_pos (by simp [hg]),
        List.map_cons]
      rw [ih k B hk (fun g hg2 => hv g (List.mem_cons_of_mem f hg2)) hd']
      simp

theorem find_secrets_pairwise_lt (sha : List Char → List Char) (t : List Char) :
    (find_secrets sha t).Pairwise fun a b => a.start < b.start := by
  refine List.Pairwise.imp_of_mem ?_ (detector_order_invariant sha t).2
  intro a b ha _ hab
  have := (find_secrets_valid ha).2.1
  omega

theorem sortStartDesc_find_secrets (sha : List Char → List Char) (t : List Char) :
    sortStartDesc (find_secrets sha t) = (find_secrets sha t).reverse :=
  sortStartDesc_of_ascending (find_secrets_pairwise_lt sha t)

/-- C1: scanning a text and immediately replaying the recorded entry against
the unchanged text applies every finding (`skipped = 0`, `applied` = number
of findings, no notes) and returns exactly the redactor's output on that
text and findings. -/
theorem replay_round_trip (sha : List Char → List Char) (t : List Char) :
    patch_from_manifest_entry sha t (find_secrets sha t) =
      (apply_redactions t (find_secrets sha t),
       { applied := (find_secrets sha t).length, skipped := 0, notes := [] }) := by
  set fs := find_secrets sha t with hfs
  have hperm := perm_sortStartDesc fs
  have hdesc : (sortStartDesc fs).Pairwise fun a b => b.stop ≤ a.start := by
    rw [sortStartDesc_find_secrets, List.pairwise_reverse]
    exact (detector_order_invariant sha t).2
  have hv : ∀ f ∈ sortStartDesc fs, 0 ≤ f.start ∧ f.start < f.stop ∧
      f.stop.toNat ≤ t.length ∧ f.match_len = f.stop - f.start := by
    intro f hf
    obtain ⟨h1, h2, h3, h4, -⟩ := find_secrets_valid (hperm.mem_iff.mp hf)
    exact ⟨h1, h2, by omega, h4⟩
  have hgood : ∀ f ∈ sortStartDesc fs, goodF sha t f = true := by
    intro f hf
    obtain ⟨-, -, -, -, h5, -⟩ := find_secrets_valid (hperm.mem_iff.mp hf)
    simp [goodF, h5]
  have hmaster := patchGo_characterize sha t (sortStartDesc fs) t.length []
    (le_refl _) hv hdesc
  rw [List.take_length, List.append_nil] at hmaster
  rw [List.filter_eq_self.mpr hgood,
    List.filter_eq_nil_iff.mpr (fun f hf => by simp [hgood f hf])] at hmaster
  unfold patch_from_manifest_entry
  rw [hmaster]
  simp only [List.map_nil, List.take_nil, List.length_nil]
  refine Prod.ext rfl ?_
  simp only
  congr 1
  exact hperm.length_eq

/-- The three validation checks of one replay step, stated as the
specification describes them: the span is well-formed and in bounds (not
`start < 0`, `end > len(text)`, or `start >= end`), the slice
`text[start:end]` has the recorded `match_len`, and when a hash is
recorded it equals the hash of the slice. -/
def checksSpec (sha : List Char → List Char) (out : List Char) (f : Finding) : Prop :=
  ¬(f.start < 0 ∨ (out.length : Int) < f.stop ∨ f.stop ≤ f.start) ∧
  ((sliceN out f.start.toNat f.stop.toNat).length : Int) = f.match_len ∧
  (f.match_sha256 ≠ [] → sha (sliceN out f.start.toNat f.stop.toNat) = f.match_sha256)

/-- C2: a replay step applies a finding iff exactly the three validation
checks pass; a passing step splices and counts one `applied`; a failing
step leaves the text unchanged, counts one `skipped`, prepends one reason,
and the remaining findings are still processed (the replay never aborts:
`applied + skipped` always equals the number of findings and every skip
contributes a reason); the report's notes are the reasons capped at 25. -/
theorem replay_validation_checks :
    (∀ (sha : List Char → List Char) (out : List Char) (f : Finding),
      (patchGo sha out [f]).2.1 = 1 ↔ checksSpec sha out f) ∧
    (∀ (sha : List Char → List Char) (out : List Char) (f : Finding) (fs : List Finding),
      checksSpec sha out f →
        patchGo sha out (f :: fs) =
          ((patchGo sha (splice out f) fs).1, (patchGo sha (splice out f) fs).2.1 + 1,
           (patchGo sha (splice out f) fs).2.2.1, (patchGo sha (splice out f) fs).2.2.2)) ∧
    (∀ (sha : List Char → List Char) (out : List Char) (f : Finding) (fs : List Finding),
      ¬checksSpec sha out f →
        ∃ reason : String,
          patchGo sha out (f :: fs) =
            ((patchGo sha out fs).1, (patchGo sha out fs).2.1,
             (patchGo sha out fs).2.2.1 + 1, reason :: (patchGo sha out fs).2.2.2)) ∧
    (∀ (sha : List Char → List Char) (out : List Char) (fs : List Finding),
      (patchGo sha out fs).2.1 + (patchGo sha out fs).2.2.1 = fs.length ∧
      (patchGo sha out fs).2.2.1 = (patchGo sha out fs).2.2.2.length) ∧
    (∀ (sha : List Char → List Char) (t : List Char) (fs : List Finding),
      (patch_from_manifest_entry sha t fs).2.notes =
        ((patchGo sha t (sortStartDesc fs)).2.2.2).take 25) := by
  have hstep : ∀ (sha : List Char → List Char) (out : List Char) (f : Finding)
      (fs : List Finding), ¬checksSpec sha out f →
      ∃ reason : String,
        patchGo sha out (f :: fs) =
          ((patchGo sha out fs).1, (patchGo sha out fs).2.1,
           (patchGo sha out fs).2.2.1 + 1, reason :: (patchGo sha out fs).2.2.2) := by
    intro sha out f fs hc
    unfold checksSpec at hc
    push_neg at hc
    by_cases h1 : f.start < 0 ∨ (out.length : Int) < f.stop ∨ f.stop ≤ f.start
    · exact ⟨spanReason f.start f.stop, by simp only [patchGo, if_pos h1]⟩
    · by_cases h2 : ((sliceN out f.start.toNat f.stop.toNat).length : Int) = f.match_len
      · by_cases h3 : f.match_sha256 ≠ [] ∧
            sha (sliceN out f.start.toNat f.stop.toNat) ≠ f.match_sha256
        · exact ⟨shaReason f.start f.stop, by
            simp only [patchGo, if_neg h1, if_neg (not_ne_iff.mpr h2), if_pos h3]⟩
        · exfalso
          push_neg at h1
          rcases hc h1 h2 with ⟨hne, hmiss⟩
          exact h3 ⟨hne, hmiss⟩
      · exact ⟨lenReason f.start f.stop, by simp only [patchGo, if_neg h1, if_pos h2]⟩
  have hpass : ∀ (sha : List Char → List Char) (out : List Char) (f : Finding)
      (fs : List Finding), checksSpec sha out f →
      patchGo sha out (f :: fs) =
        ((patchGo sha (splice out f) fs).1, (patchGo sha (splice out f) fs).2.1 + 1,
         (patchGo sha (splice out f) fs).2.2.1, (patchGo sha (splice out f) fs).2.2.2) := by
    intro sha out f fs hc
    obtain ⟨h1, h2, h3⟩ := hc
    have h3' : ¬(f.match_sha256 ≠ [] ∧
        sha (sliceN out f.start.toNat f.stop.toNat) ≠ f.match_sha256) := by
      intro ⟨ha, hb⟩
      exact hb (h3 ha)
    simp only [patchGo, if_neg h1, if_neg (not_ne_iff.mpr h2), if_neg h3']
  have hcount : ∀ (sha : List Char → List Char) (out : List Char) (fs : List Finding),
      (patchGo sha out fs).2.1 + (patchGo sha out fs).2.2.1 = fs.length ∧
      (patchGo sha out fs).2.2.1 = (patchGo sha out fs).2.2.2.length := by
    intro sha out fs
    induction fs generalizing out with
    | nil => simp [patchGo]
    | cons f fs ih =>
      simp only [patchGo]
      split
      · have h := ih out
        constructor
        · simp only [List.length_cons]
          omega
        · simp only [List.length_cons]
          omega
      · split
        · have h := ih out
          constructor
          · simp only [List.length_cons]
            omega
          · simp only [List.length_cons]
            omega
        · split
          · have h := ih out
            constructor
            · simp only [List.length_cons]
              omega
            · simp only [List.length_cons]
              omega
          · have h := ih (splice out f)
            constructor
            · simp only [List.length_cons]
              omega
            · simp only [List.length_cons]
              omega
  refine ⟨?_, hpass, hstep, hcount, fun sha t fs => rfl⟩
  intro sha out f
  constructor
  · intro happ
    by_contra hc
    rcases hstep sha out f [] hc with ⟨r, hr⟩
    rw [hr] at happ
    simp [patchGo] at happ
  · intro hc
    rw [hpass sha out f [] hc]
    simp [patchGo]

/-- Witness for the replay validation theorem: a finding with a negative
start is skipped with a reason, at a concrete input. -/
theorem replay_validation_checks_witness :
    ∃ reason : String,
      patchGo (fun s => s) "ab".toList
        [{ rule := "PASSWORD", start := -1, stop := 1, replacement := [],
           match_len := 2, match_sha256 := [] }] =
        ("ab".toList, 0, 1, [reason]) := by
  rcases replay_validation_checks.2.2.1 (fun s => s) "ab".toList
      { rule := "PASSWORD", start := -1, stop := 1, replacement := [],
        match_len := 2, match_sha256 := [] } []
      (fun hc => hc.1 (Or.inl (by decide))) with ⟨r, hr⟩
  exact ⟨r, by rw [hr]; simp [patchGo]⟩

theorem length_filter_not {α : Type} (p : α → Bool) (l : List α) :
    (l.filter p).length + (l.filter fun x => !p x).length = l.length := by
  induction l with
  | nil => rfl
  | cons x xs ih =>
    cases hx : p x <;> simp [List.filter_cons, hx] <;> omega

theorem find_secrets_nodup (sha : List Char → List Char) (t : List Char) :
    (find_secrets sha t).Nodup := by
  refine List.Pairwise.imp_of_mem ?_ (detector_order_invariant sha t).2
  intro a b ha _ hab
  have h2 := (find_secrets_valid ha).2.1
  intro hEq
  rw [← hEq] at hab
  omega

theorem find_secrets_disjoint {sha : List Char → List Char} {t : List Char}
    {f g : Finding} (hf : f ∈ find_secrets sha t) (hg : g ∈ find_secrets sha t)
    (hne : f ≠ g) : f.stop ≤ g.start ∨ g.stop ≤ f.start := by
  have hp := (detector_order_invariant sha t).2.imp
    (fun {a b} h => (Or.inl h : a.stop ≤ b.start ∨ b.stop ≤ a.start))
  exact hp.forall (fun a b h => h.symm) hf hg hne

theorem filter_eq_singleton_of {α : Type} {l : List α} {a : α}
    (p : α → Bool) (ha : a ∈ l) (hnd : l.Nodup)
    (hp : ∀ x ∈ l, p x = true ↔ x = a) : l.filter p = [a] := by
  induction l with
  | nil => simp at ha
  | cons x xs ih =>
    by_cases hxa : x = a
    · subst hxa
      rw [List.filter_cons_of_pos ((hp x (List.mem_cons_self x xs)).mpr rfl)]
      have hx : x ∉ xs := (List.nodup_cons.mp hnd).1
      rw [List.filter_eq_nil_iff.mpr ?_]
      intro y hy hpy
      exact hx (((hp y (List.mem_cons_of_mem x hy)).mp hpy) ▸ hy)
    · have haxs : a ∈ xs := (List.mem_cons.mp ha).resolve_left fun h => hxa h.symm
      rw [List.filter_cons_of_neg (by
        intro hpx
        exact hxa ((hp x (List.mem_cons_self x xs)).mp hpx))]
      exact ih haxs (List.nodup_cons.mp hnd).2
        fun y hy => hp y (List.mem_cons_of_mem x hy)

/-- C3: drift detection.  Scan a text, then change one character inside the
`k`-th recorded finding's span (length preserved) and replay the entry
against the mutated text: that finding is skipped with exactly one
hash-mismatch note, and every other finding still applies
(`applied = n - 1`, `skipped = 1`).  `hcoll` is the collision-freeness of
the hash on the two slices (true of SHA-256 for any actual change), and
`hsha` records that the hex digest is never empty. -/
theorem replay_drift_detection (sha : List Char → List Char) (t : List Char)
    (hsha : ∀ s, sha s ≠ []) (k : Nat) (hk : k < (find_secrets sha t).length)
    (p : Nat) (c : Char)
    (hp1 : ((find_secrets sha t).get ⟨k, hk⟩).start.toNat ≤ p)
    (hp2 : p < ((find_secrets sha t).get ⟨k, hk⟩).stop.toNat)
    (hchanged : c ≠ charAt t p)
    (hcoll : sha (sliceN (t.set p c) ((find_secrets sha t).get ⟨k, hk⟩).start.toNat
        ((find_secrets sha t).get ⟨k, hk⟩).stop.toNat) ≠
      ((find_secrets sha t).get ⟨k, hk⟩).match_sha256) :
    (patch_from_manifest_entry sha (t.set p c) (find_secrets sha t)).2.applied =
        (find_secrets sha t).length - 1 ∧
    (patch_from_manifest_entry sha (t.set p c) (find_secrets sha t)).2.skipped = 1 ∧
    (patch_from_manifest_entry sha (t.set p c) (find_secrets sha t)).2.notes =
      [shaReason ((find_secrets sha t).get ⟨k, hk⟩).start
        ((find_secrets sha t).get ⟨k, hk⟩).stop] := by
  set fs := find_secrets sha t with hfs
  set fk := fs.get ⟨k, hk⟩ with hfk
  set tm := t.set p c with htm
  have hlen : tm.length = t.length := List.length_set t p c
  have hkmem : fk ∈ fs := List.get_mem fs k hk
  have hperm := perm_sortStartDesc fs
  have hdesc : (sortStartDesc fs).Pairwise fun a b => b.stop ≤ a.start := by
    rw [hfs, sortStartDesc_find_secrets, List.pairwise_reverse]
    exact (detector_order_invariant sha t).2
  have hv : ∀ f ∈ sortStartDesc fs, 0 ≤ f.start ∧ f.start < f.stop ∧
      f.stop.toNat ≤ tm.length ∧ f.match_len = f.stop - f.start := by
    intro f hf
    obtain ⟨h1, h2, h3, h4, -⟩ := find_secrets_valid (hperm.mem_iff.mp hf)
    exact ⟨h1, h2, by omega, h4⟩
  -- a finding is good on the mutated text iff it is not the k-th one
  have hgood_iff : ∀ f ∈ fs, goodF sha tm f = true ↔ ¬(f = fk) := by
    intro f hf
    constructor
    · intro hg hffk
      subst hffk
      simp only [goodF, Bool.or_eq_true, beq_iff_eq] at hg
      rcases hg with hg | hg
      · obtain ⟨-, -, -, -, h5, -⟩ := find_secrets_valid hf
        exact hsha _ (h5 ▸ hg)
      · exact hcoll hg
    · intro hffk
      obtain ⟨h1, h2, h3, h4, h5, -⟩ := find_secrets_valid hf
      have hdisj := find_secrets_disjoint hf hkmem hffk
      obtain ⟨g1, g2, g3, -⟩ := find_secrets_valid hkmem
      have hout : p < f.start.toNat ∨ f.stop.toNat ≤ p := by
        rcases hdisj with h | h
        · right; omega
        · left; omega
      have hslice : sliceN tm f.start.toNat f.stop.toNat =
          sliceN t f.start.toNat f.stop.toNat := sliceN_set_outside hout
      simp [goodF, hslice, h5]
  have hbadf : (sortStartDesc fs).filter (fun f => !goodF sha tm f) = [fk] := by
    rw [hfs, sortStartDesc_find_secrets, List.filter_reverse]
    rw [filter_eq_singleton_of _ hkmem (find_secrets_nodup sha t)
      (fun x hx => by
        rw [Bool.not_eq_true']
        constructor
        · intro hb
          by_contra hne
          exact absurd ((hgood_iff x hx).mpr hne) (by simp [hb])
        · intro hxe
          have := (hgood_iff x hx).not.mpr (by simp [hxe])
          simpa using this)]
    rfl
  have hmaster := patchGo_characterize sha tm (sortStartDesc fs) tm.length []
    (le_refl _) hv hdesc
  rw [List.take_length, List.append_nil] at hmaster
  have hcounts := length_filter_not (goodF sha tm) (sortStartDesc fs)
  unfold patch_from_manifest_entry
  rw [hmaster, hbadf]
  have hlensort : (sortStartDesc fs).length = fs.length := hperm.length_eq
  refine ⟨?_, rfl, rfl⟩
  simp only
  rw [hbadf, hlensort] at hcounts
  simp only [List.length_cons, List.length_nil] at hcounts
  rw [← hfs]
  omega

/-- The concrete text used by the drift witness. -/
def driftText : List Char := "key sk-aaaaaaaaaaaaaaaaaaaa and ghp_bbbbbbbbbbbbbbbbbbbb end".toList

/-- A concrete stand-in hex function for witnesses: prepends a marker, so
it is injective and never empty. -/
def witSha (s : List Char) : List Char := 'h' :: s

/-- Witness for drift detection: mutating one character inside the first
finding of a two-finding text makes replay skip exactly that finding with
a sha-mismatch note and still apply the other. -/
theorem replay_drift_detection_witness :
    (patch_from_manifest_entry witSha (driftText.set 6 'Z')
        (find_secrets witSha driftText)).2.applied = 1 ∧
    (patch_from_manifest_entry witSha (driftText.set 6 'Z')
        (find_secrets witSha driftText)).2.skipped = 1 ∧
    (patch_from_manifest_entry witSha (driftText.set 6 'Z')
        (find_secrets witSha driftText)).2.notes = ["skip: sha mismatch at 4:27"] := by
  have h := replay_drift_detection witSha driftText
    (fun s => by simp [witSha]) 0 (by decide) 6 'Z'
    (by decide) (by decide) (by decide) (by decide)
  obtain ⟨h1, h2, h3⟩ := h
  refine ⟨?_, h2, ?_⟩
  · rw [h1]
    decide
  · rw [h3]
    decide

/-! ### Redactor equivalence -/

theorem pairwise_of_chain_spans {l : List Finding}
    (hse : ∀ f ∈ l, f.start < f.stop)
    (hc : List.Chain' (fun a b => a.stop ≤ b.start) l) :
    l.Pairwise fun a b => a.stop ≤ b.start := by
  induction l with
  | nil => simp
  | cons f rest ih =>
    have hse' : ∀ g ∈ rest, g.start < g.stop :=
      fun g hg => hse g (List.mem_cons_of_mem f hg)
    have hc' : List.Chain' (fun a b => a.stop ≤ b.start) rest := hc.tail
    refine List.pairwise_cons.mpr ⟨?_, ih hse' hc'⟩
    intro g hg
    cases rest with
    | nil => simp at hg
    | cons g1 rest1 =>
      have h1 : f.stop ≤ g1.start := (List.chain'_cons.mp hc).1
      rcases List.mem_cons.mp hg with rfl | hg1
      · exact h1
      · have hp := ih hse' hc'
        have h2 := (List.pairwise_cons.mp hp).1 g hg1
        have h3 := hse' g1 (List.mem_cons_self g1 rest1)
        omega

theorem foldr_splice_eq_cursor (t : List Char) :
    ∀ (fs : List Finding) (c : Nat),
      (∀ f ∈ fs, 0 ≤ f.start ∧ f.start < f.stop ∧ f.stop ≤ (t.length : Int)) →
      fs.Pairwise (fun a b => a.stop ≤ b.start) →
      (∀ f ∈ fs, (c : Int) ≤ f.start) →
      fs.foldr (fun f out => splice out f) t = t.take c ++ cursorGo t c fs := by
  intro fs
  induction fs with
  | nil =>
    intro c _ _ _
    simp only [List.foldr_nil, cursorGo]
    by_cases h : c < t.length
    · rw [if_pos h, List.take_append_drop]
    · rw [if_neg h, List.append_nil, List.take_of_length_le (by omega)]
  | cons f rest ih =>
    intro c hv hpair hc
    obtain ⟨h0, hse, hel⟩ := hv f (List.mem_cons_self f rest)
    rcases List.pairwise_cons.mp hpair with ⟨hall, hpair'⟩
    have hstop : ((f.stop.toNat : Nat) : Int) = f.stop := Int.toNat_of_nonneg (by omega)
    have hstart : ((f.start.toNat : Nat) : Int) = f.start := Int.toNat_of_nonneg h0
    have helN : f.stop.toNat ≤ t.length := by omega
    have hseN : f.start.toNat ≤ f.stop.toNat := by omega
    have hih := ih f.stop.toNat (fun g hg => hv g (List.mem_cons_of_mem f hg)) hpair'
      (fun g hg => by have := hall g hg; omega)
    simp only [List.foldr_cons, hih]
    unfold splice
    rw [List.take_append_of_le_length (by rw [List.length_take]; omega),
      List.take_take, min_eq_left hseN,
      List.drop_append_of_le_length (by rw [List.length_take]; omega),
      List.drop_take, Nat.sub_self, List.take_zero, List.nil_append]
    show List.take f.start.toNat t ++ f.replacement ++ cursorGo t f.stop.toNat rest =
      t.take c ++ cursorGo t c (f :: rest)
    have hcs : c ≤ f.start.toNat := by
      have := hc f (List.mem_cons_self f rest)
      omega
    rw [cursorGo]
    by_cases hlt : c < f.start.toNat
    · rw [if_pos hlt]
      have : t.take c ++ sliceN t c f.start.toNat = t.take f.start.toNat := by
        unfold sliceN
        rw [← List.take_add]
        congr 1
        omega
      rw [← List.append_assoc, ← List.append_assoc, this]
    · have hceq : c = f.start.toNat := by omega
      rw [if_neg hlt, hceq]
      simp

/-- C6: on well-formed findings for a text — spans in bounds, non-empty,
ascending and non-overlapping (the detector's output contract) — the
tail-backward splice redactor of blacktent_scan.py returns exactly the
same string as the left-to-right cursor walk of blacktent/redaction.py. -/
theorem redactor_equivalence (t : List Char) (fs : List Finding)
    (hv : ∀ f ∈ fs, 0 ≤ f.start ∧ f.start < f.stop ∧ f.stop ≤ (t.length : Int))
    (hchain : List.Chain' (fun a b => a.stop ≤ b.start) fs) :
    apply_redactions t fs = cursorApply t fs := by
  have hpair := pairwise_of_chain_spans (fun f hf => (hv f hf).2.1) hchain
  have hlt : fs.Pairwise fun a b => a.start < b.start := by
    refine hpair.imp_of_mem ?_
    intro a b ha _ hab
    have := (hv a ha).2.1
    omega
  unfold apply_redactions cursorApply
  rw [sortStartDesc_of_ascending hlt, List.foldl_reverse]
  cases fs with
  | nil => simp
  | cons f rest =>
    rw [if_neg (by simp)]
    have h := foldr_splice_eq_cursor t (f :: rest) 0 hv hpair
      (fun g hg => by have := (hv g hg).1; omega)
    simpa using h

/-- Concrete findings for the redactor-equivalence witness. -/
def c6fs : List Finding :=
  [{ rule := "A", start := 1, stop := 3, replacement := "XY".toList,
     match_len := 2, match_sha256 := [] },
   { rule := "B", start := 5, stop := 7, replacement := "Z".toList,
     match_len := 2, match_sha256 := [] }]

/-- Witness: both redactors produce the same output on a concrete text and
finding list. -/
theorem redactor_equivalence_witness :
    apply_redactions "abcdefgh".toList c6fs = cursorApply "abcdefgh".toList c6fs :=
  redactor_equivalence "abcdefgh".toList c6fs (by decide)
    (by unfold c6fs
        exact List.chain'_cons.mpr ⟨by decide, List.chain'_singleton _⟩)

/-! ### Corrupt manifest recovery -/

theorem lastIdx_none {c : Char} {l : List Char} (h : lastIdx c l = none) : c ∉ l := by
  induction l with
  | nil => simp
  | cons x xs ih =>
    intro hmem
    unfold lastIdx at h
    rcases hx : lastIdx c xs with _ | j
    · rw [hx] at h
      rcases List.mem_cons.mp hmem with rfl | hmem'
      · simp at h
      · exact ih hx hmem'
    · rw [hx] at h
      simp at h

theorem lastIdx_spec {c : Char} {l : List Char} {i : Nat} (h : lastIdx c l = some i) :
    l[i]? = some c ∧ ∀ j, i < j → l[j]? ≠ some c := by
  induction l generalizing i with
  | nil => simp [lastIdx] at h
  | cons x xs ih =>
    unfold lastIdx at h
    rcases hx : lastIdx c xs with _ | j
    · rw [hx] at h
      by_cases hxc : x = c
      · rw [if_pos hxc] at h
        obtain rfl : (0 : Nat) = i := by simpa using h
        refine ⟨by simpa using hxc, ?_⟩
        intro j hj hget
        rcases j with _ | j'
        · omega
        · have h2 : xs[j']? = some c := by simpa using hget
          exact (lastIdx_none hx) (List.getElem?_mem h2)
      · rw [if_neg hxc] at h
        simp at h
    · rw [hx] at h
      obtain rfl : j + 1 = i := by simpa using h
      obtain ⟨hj1, hj2⟩ := ih hx
      refine ⟨by simpa using hj1, ?_⟩
      intro j2 hj hget
      rcases j2 with _ | j2'
      · omega
      · exact hj2 j2' (by omega) (by simpa using hget)

theorem splitLast_recombine (c : Char) (p : List Char) :
    (splitLast c p).1 ++ (splitLast c p).2 = p := by
  unfold splitLast
  rcases lastIdx c p with _ | i
  · rfl
  · exact List.take_append_drop (i + 1) p

theorem withSuffixCorrupt_suffix (p : List Char) :
    ".corrupt.json".toList <:+ withSuffixCorrupt p :=
  List.suffix_append _ _

theorem stemOf_of_some {name : List Char} {i : Nat} (h : lastIdx '.' name = some i) :
    stemOf name = if 0 < i ∧ i + 1 < name.length then name.take i else name := by
  unfold stemOf
  rw [h]

theorem stemOf_of_none {name : List Char} (h : lastIdx '.' name = none) :
    stemOf name = name := by
  unfold stemOf
  rw [h]

theorem withSuffixCorrupt_ne (p : List Char) : withSuffixCorrupt p ≠ p := by
  intro heq
  unfold withSuffixCorrupt at heq
  conv at heq => rhs; rw [← splitLast_recombine '/' p]
  rw [List.append_assoc] at heq
  have heq2 : stemOf (splitLast '/' p).2 ++ ".corrupt.json".toList = (splitLast '/' p).2 :=
    List.append_cancel_left heq
  set name := (splitLast '/' p).2 with hname
  rcases hdot : lastIdx '.' name with _ | i
  · rw [stemOf_of_none hdot] at heq2
    have := congrArg List.length heq2
    simp at this
  · rw [stemOf_of_some hdot] at heq2
    obtain ⟨hdget, hdafter⟩ := lastIdx_spec hdot
    by_cases hguard : 0 < i ∧ i + 1 < name.length
    · rw [if_pos hguard] at heq2
      have hlen : (name.take i).length = i := by
        rw [List.length_take]
        omega
      have hdotidx : name[i + 8]? = some '.' := by
        conv_lhs => rw [← heq2]
        rw [List.getElem?_append_right (by omega)]
        rw [hlen]
        have h8 : i + 8 - i = 8 := by omega
        rw [h8]
        rfl
      exact hdafter (i + 8) (by omega) hdotidx
    · rw [if_neg hguard] at heq2
      have := congrArg List.length heq2
      simp at this

/-- C7: loading an existing but unparseable manifest never fails: the call
returns a fresh manifest whose entry list is empty, and the unparseable
file is renamed — bytes preserved — to a name carrying the `.corrupt.json`
suffix, while the original path no longer holds a file. -/
theorem corrupt_manifest_recovery {α : Type} (parse : List Char → Option (ManifestRec α))
    (now : String) (fs : List Char → Option (List Char)) (p bytes : List Char)
    (hexists : fs p = some bytes) (hbad : parse bytes = none) :
    (load_manifest_recovering parse now fs p).1 = freshManifest now ∧
    (load_manifest_recovering parse now fs p).1.files = [] ∧
    (load_manifest_recovering parse now fs p).2 (withSuffixCorrupt p) = some bytes ∧
    (load_manifest_recovering parse now fs p).2 p = none ∧
    ".corrupt.json".toList <:+ withSuffixCorrupt p := by
  have hstep : load_manifest_recovering parse now fs p =
      (freshManifest now, renameFile p (withSuffixCorrupt p) fs) := by
    unfold load_manifest_recovering
    rw [hexists]
    show (match parse bytes with
      | some m => (m, fs)
      | none => (freshManifest now, renameFile p (withSuffixCorrupt p) fs)) =
      (freshManifest now, renameFile p (withSuffixCorrupt p) fs)
    rw [hbad]
  rw [hstep]
  refine ⟨rfl, rfl, ?_, ?_, withSuffixCorrupt_suffix p⟩
  · simp [renameFile, hexists]
  · simp [renameFile, (withSuffixCorrupt_ne p).symm]

/-- Witness: a concrete unparseable manifest file is recovered and renamed
aside. -/
theorem corrupt_manifest_recovery_witness :
    (load_manifest_recovering (α := Unit) (fun _ => none) "T"
        (fun q => if q = "root/.blacktent/manifest.json".toList
                  then some "not-json-at-all".toList else none)
        "root/.blacktent/manifest.json".toList).1.files = [] ∧
    (load_manifest_recovering (α := Unit) (fun _ => none) "T"
        (fun q => if q = "root/.blacktent/manifest.json".toList
                  then some "not-json-at-all".toList else none)
        "root/.blacktent/manifest.json".toList).2
      (withSuffixCorrupt "root/.blacktent/manifest.json".toList) =
        some "not-json-at-all".toList ∧
    (load_manifest_recovering (α := Unit) (fun _ => none) "T"
        (fun q => if q = "root/.blacktent/manifest.json".toList
                  then some "not-json-at-all".toList else none)
        "root/.blacktent/manifest.json".toList).2
      "root/.blacktent/manifest.json".toList = none := by
  have h := corrupt_manifest_recovery (α := Unit) (fun _ => none) "T"
    (fun q => if q = "root/.blacktent/manifest.json".toList
              then some "not-json-at-all".toList else none)
    "root/.blacktent/manifest.json".toList "not-json-at-all".toList
    (by simp) rfl
  exact ⟨h.2.1, h.2.2.1, h.2.2.2.1⟩

/-! ### Overlap tie-break (C5) -/

/-- C5 amended: among two candidates sharing a start with different
lengths, the shorter is always discarded; the longer is kept unless some
other accepted finding overlaps its start (e.g. an earlier, longer finding
swallowed the position). -/
theorem overlap_tiebreak_amended (sha : List Char → List Char) (t : List Char)
    {f g : Finding} (hf : f ∈ scanCandidates sha t) (hg : g ∈ scanCandidates sha t)
    (hstart : f.start = g.start) (hlen : g.stop - g.start < f.stop - f.start) :
    g ∉ find_secrets sha t ∧
    (f ∈ find_secrets sha t ∨
      ∃ h ∈ find_secrets sha t, h ≠ f ∧ h.start ≤ f.start ∧ f.start < h.stop) := by
  have hse : ∀ x ∈ sortKey (scanCandidates sha t), x.start < x.stop := sortKey_scan_se
  have hsort := pairwise_sortKey (scanCandidates sha t)
  have hfs : f ∈ sortKey (scanCandidates sha t) := (perm_sortKey _).mem_iff.mpr hf
  have hgs : g ∈ sortKey (scanCandidates sha t) := (perm_sortKey _).mem_iff.mpr hg
  constructor
  · exact sweepGo_shorter_killed hsort hse hfs hgs hstart (by omega) (-1)
  · by_cases hmem : f ∈ find_secrets sha t
    · exact Or.inl hmem
    · right
      have hasc : (sortKey (scanCandidates sha t)).Pairwise
          fun a b => a.start ≤ b.start :=
        hsort.imp fun {a b} h => by unfold keyLE at h; omega
      have h0 := (scanCandidates_valid hf).1
      exact sweepGo_kept_or_overlapped hasc hfs (by omega) hmem

/-- The fixed hash stand-in used by the concrete counterexamples. -/
def exSha : List Char → List Char := fun _ => List.replicate 64 '0'

/-- Counterexample text for C5: a quoted password value that itself
contains a `token=`/`sk-` pair.  The PASSWORD finding swallows both
same-start candidates. -/
def ex5 : List Char := "password:'token=sk-aaaaaaaaaaaaaaaaaaaaaaaa-bbb'".toList

/-- The GENERIC_API_KEY candidate of `ex5` (the longer one at offset 16). -/
def f5 : Finding :=
  { rule := "GENERIC_API_KEY", start := 16, stop := 47,
    replacement := mkToken "GENERIC_API_KEY" ((exSha (sliceN ex5 16 47)).take 8),
    match_len := 31, match_sha256 := exSha (sliceN ex5 16 47) }

/-- The OPENAI_KEY candidate of `ex5` (the shorter one at offset 16). -/
def g5 : Finding :=
  { rule := "OPENAI_KEY", start := 16, stop := 43,
    replacement := mkToken "OPENAI_KEY" ((exSha (sliceN ex5 16 43)).take 8),
    match_len := 27, match_sha256 := exSha (sliceN ex5 16 43) }

/-- C5 counterexample: two candidates start at offset 16 of `ex5` with
different lengths, yet the detector keeps neither — in particular it does
not keep the longer one, refuting the claim as stated (an enclosing
PASSWORD finding starting at offset 10 wins the sweep). -/
theorem overlap_tiebreak_counterexample :
    f5 ∈ scanCandidates exSha ex5 ∧ g5 ∈ scanCandidates exSha ex5 ∧
    f5.start = g5.start ∧ g5.stop - g5.start < f5.stop - f5.start ∧
    f5 ∉ find_secrets exSha ex5 ∧ g5 ∉ find_secrets exSha ex5 := by
  decide

/-- Witness text for the amended C5: the same pair without the enclosing
quote context, so the longer candidate is kept. -/
def ex5w : List Char := "token=sk-aaaaaaaaaaaaaaaaaaaaaaaa-bbb".toList

/-- The GENERIC_API_KEY candidate of `ex5w`. -/
def f5w : Finding :=
  { rule := "GENERIC_API_KEY", start := 6, stop := 37,
    replacement := mkToken "GENERIC_API_KEY" ((exSha (sliceN ex5w 6 37)).take 8),
    match_len := 31, match_sha256 := exSha (sliceN ex5w 6 37) }

/-- The OPENAI_KEY candidate of `ex5w`. -/
def g5w : Finding :=
  { rule := "OPENAI_KEY", start := 6, stop := 33,
    replacement := mkToken "OPENAI_KEY" ((exSha (sliceN ex5w 6 33)).take 8),
    match_len := 27, match_sha256 := exSha (sliceN ex5w 6 33) }

/-- Witness for the amended C5 at a concrete input. -/
theorem overlap_tiebreak_amended_witness :
    g5w ∉ find_secrets exSha ex5w ∧
    (f5w ∈ find_secrets exSha ex5w ∨
      ∃ h ∈ find_secrets exSha ex5w, h ≠ f5w ∧ h.start ≤ f5w.start ∧
        f5w.start < h.stop) :=
  overlap_tiebreak_amended exSha ex5w (by decide) (by decide) (by decide) (by decide)

/-! ### Rule precedence (C10) -/

/-- The candidate segments of `find_secrets`, one per rule of `RULES`, in
rule order. -/
def ruleSeg (sha : List Char → List Char) (t : List Char) : Nat → List Finding
  | 0 => ruleCandidates sha "OPENAI_KEY" matchOPENAI t
  | 1 => ruleCandidates sha "GITHUB_TOKEN" matchGITHUB t
  | 2 => ruleCandidates sha "GENERIC_API_KEY" matchGENERIC t
  | 3 => ruleCandidates sha "PASSWORD" matchPASSWORD t
  | _ => []

theorem scanCandidates_eq_segs (sha : List Char → List Char) (t : List Char) :
    scanCandidates sha t =
      ruleSeg sha t 0 ++ (ruleSeg sha t 1 ++ (ruleSeg sha t 2 ++ ruleSeg sha t 3)) := by
  simp [scanCandidates, ruleSeg, List.append_assoc]

theorem ruleCandidates_rule {sha : List Char → List Char} {n : String}
    {m : List Char → Nat → Option (Nat × Nat × Nat)} {t : List Char} {f : Finding}
    (hf : f ∈ ruleCandidates sha n m t) : f.rule = n := by
  obtain ⟨s, e, -, -, rfl⟩ := ruleCandidates_shape hf
  rfl

theorem ruleSeg_subset {sha : List Char → List Char} {t : List Char} {k : Nat}
    {f : Finding} (hk : k ≤ 3) (hf : f ∈ ruleSeg sha t k) :
    f ∈ scanCandidates sha t := by
  rw [scanCandidates_eq_segs]
  simp only [List.mem_append]
  interval_cases k <;> simp only [ruleSeg] at hf ⊢ <;> tauto

theorem split_filter_two {p : Finding → Bool} {A B : List Finding} {f g : Finding}
    (hf : f ∈ A) (hpf : p f = true) (hg : g ∈ B) (hpg : p g = true) (hgA : g ∉ A) :
    ∃ P1 P2, (A ++ B).filter p = P1 ++ f :: P2 ∧ g ∈ P2 ∧ g ∉ P1 := by
  have hfA : f ∈ A.filter p := List.mem_filter.mpr ⟨hf, hpf⟩
  obtain ⟨X, Y, hXY⟩ := List.mem_iff_append.mp hfA
  refine ⟨X, Y ++ B.filter p, ?_, ?_, ?_⟩
  · rw [List.filter_append, hXY]
    simp [List.append_assoc]
  · exact List.mem_append_right _ (List.mem_filter.mpr ⟨hg, hpg⟩)
  · intro hgX
    apply hgA
    have hgf : g ∈ A.filter p := by
      rw [hXY]
      exact List.mem_append_left _ hgX
    exact (List.mem_filter.mp hgf).1

theorem stable_kill_from_parts {sha : List Char → List Char} {t : List Char}
    {A B : List Finding} {f g : Finding}
    (hsplit : scanCandidates sha t = A ++ B)
    (hfA : f ∈ A) (hgB : g ∈ B) (hgA : g ∉ A) (hgf : g ≠ f)
    (hstart : f.start = g.start) (hstop : f.stop = g.stop) :
    g ∉ find_secrets sha t := by
  have hpf : (decide (f.start = f.start ∧ f.stop = f.stop)) = true := by simp
  have hpg : (decide (g.start = f.start ∧ g.stop = f.stop)) = true := by
    simp [hstart, hstop]
  have hcl : ∀ a b : Finding,
      (fun h => decide (h.start = f.start ∧ h.stop = f.stop)) a = true →
      (fun h => decide (h.start = f.start ∧ h.stop = f.stop)) b = true → keyLE a b := by
    intro a b ha hb
    simp only [decide_eq_true_eq] at ha hb
    unfold keyLE
    omega
  obtain ⟨P1, P2, hfil, hg2, hg1⟩ := split_filter_two
    (p := fun h => decide (h.start = f.start ∧ h.stop = f.stop)) hfA hpf hgB hpg hgA
  have hfil2 : (sortKey (scanCandidates sha t)).filter
      (fun h => decide (h.start = f.start ∧ h.stop = f.stop)) = P1 ++ f :: P2 := by
    rw [filter_sortKey _ _ hcl, hsplit, hfil]
  show g ∉ sweepGo (-1) (sortKey (scanCandidates sha t))
  exact sweepGo_stable_killed sortKey_scan_se hfil2 hg2 hg1 hgf (-1)

/-- C10 amended: when candidates from two different rules share start and
length, the later rule's candidate is always discarded (candidates are
appended in rule order and the sort is stable), and the earlier rule's is
kept unless some other accepted finding overlaps its start. -/
def ruleNameAt : Nat → String
  | 0 => "OPENAI_KEY"
  | 1 => "GITHUB_TOKEN"
  | 2 => "GENERIC_API_KEY"
  | 3 => "PASSWORD"
  | _ => ""

theorem ruleSeg_rule {sha : List Char → List Char} {t : List Char} {k : Nat}
    (hk : k ≤ 3) : ∀ x ∈ ruleSeg sha t k, x.rule = ruleNameAt k := by
  interval_cases k <;> exact fun x hx => ruleCandidates_rule hx

theorem precedence_kill {sha : List Char → List Char} {t : List Char}
    {A B : List Finding} {f g : Finding}
    (hsplit : scanCandidates sha t = A ++ B)
    (hfA : f ∈ A) (hgB : g ∈ B) (hAr : ∀ x ∈ A, x.rule ≠ g.rule)
    (hfr : f.rule ≠ g.rule)
    (hstart : f.start = g.start) (hstop : f.stop = g.stop) :
    g ∉ find_secrets sha t :=
  stable_kill_from_parts hsplit hfA hgB
    (fun hm => hAr g hm rfl) (fun hEq => hfr (by rw [hEq]))
    hstart hstop

/-- C10 amended: when candidates from two different rules share start and
length, the later rule's candidate is always discarded (candidates are
appended in rule order and the sort is stable), and the earlier rule's is
kept unless some other accepted finding overlaps its start. -/
theorem rule_precedence_amended (sha : List Char → List Char) (t : List Char)
    {i j : Nat} {f g : Finding} (hij : i < j) (hj : j ≤ 3)
    (hf : f ∈ ruleSeg sha t i) (hg : g ∈ ruleSeg sha t j)
    (hstart : f.start = g.start) (hstop : f.stop = g.stop) :
    g ∉ find_secrets sha t ∧
    (f ∈ find_secrets sha t ∨
      ∃ h ∈ find_secrets sha t, h ≠ f ∧ h.start ≤ f.start ∧ f.start < h.stop) := by
  have hfc : f ∈ scanCandidates sha t := ruleSeg_subset (by omega) hf
  have hfr : f.rule = ruleNameAt i := ruleSeg_rule (by omega) f hf
  have hgr : g.rule = ruleNameAt j := ruleSeg_rule hj g hg
  constructor
  · have hi2 : i ≤ 2 := by omega
    have hfr_ne : f.rule ≠ g.rule := by
      rw [hfr, hgr]
      interval_cases i <;> interval_cases j <;> decide
    have hAr : ∀ (k : Nat), k ≤ 3 → k ≠ j → ∀ x ∈ ruleSeg sha t k, x.rule ≠ g.rule := by
      intro k hk3 hkj x hx
      rw [ruleSeg_rule hk3 x hx, hgr]
      interval_cases j <;> interval_cases k <;> first | decide | omega
    have hsplit1 : scanCandidates sha t =
        ruleSeg sha t 0 ++ (ruleSeg sha t 1 ++ (ruleSeg sha t 2 ++ ruleSeg sha t 3)) :=
      scanCandidates_eq_segs sha t
    have hj1 : 1 ≤ j := by omega
    interval_cases j
    · -- j = 1, so i = 0
      interval_cases i
      refine precedence_kill hsplit1 hf ?_ ?_ hfr_ne hstart hstop
      · exact List.mem_append_left _ hg
      · exact hAr 0 (by omega) (by omega)
    · -- j = 2, so i ∈ {0, 1}
      have hsplit2 : scanCandidates sha t =
          (ruleSeg sha t 0 ++ ruleSeg sha t 1) ++ (ruleSeg sha t 2 ++ ruleSeg sha t 3) := by
        rw [hsplit1, List.append_assoc]
      have hgB : g ∈ ruleSeg sha t 2 ++ ruleSeg sha t 3 := List.mem_append_left _ hg
      have hA : ∀ x ∈ ruleSeg sha t 0 ++ ruleSeg sha t 1, x.rule ≠ g.rule := by
        intro x hx
        rcases List.mem_append.mp hx with hx | hx
        · exact hAr 0 (by omega) (by omega) x hx
        · exact hAr 1 (by omega) (by omega) x hx
      interval_cases i
      · exact precedence_kill hsplit2 (List.mem_append_left _ hf) hgB hA hfr_ne
          hstart hstop
      · exact precedence_kill hsplit2 (List.mem_append_right _ hf) hgB hA hfr_ne
          hstart hstop
    · -- j = 3, so i ∈ {0, 1, 2}
      have hsplit3 : scanCandidates sha t =
          (ruleSeg sha t 0 ++ (ruleSeg sha t 1 ++ ruleSeg sha t 2)) ++ ruleSeg sha t 3 := by
        rw [hsplit1]
        simp [List.append_assoc]
      have hA : ∀ x ∈ ruleSeg sha t 0 ++ (ruleSeg sha t 1 ++ ruleSeg sha t 2),
          x.rule ≠ g.rule := by
        intro x hx
        rcases List.mem_append.mp hx with hx | hx
        · exact hAr 0 (by omega) (by omega) x hx
        · rcases List.mem_append.mp hx with hx | hx
          · exact hAr 1 (by omega) (by omega) x hx
          · exact hAr 2 (by omega) (by omega) x hx
      interval_cases i
      · exact precedence_kill hsplit3 (List.mem_append_left _ hf) hg hA hfr_ne
          hstart hstop
      · exact precedence_kill hsplit3
          (List.mem_append_right _ (List.mem_append_left _ hf)) hg hA hfr_ne
          hstart hstop
      · exact precedence_kill hsplit3
          (List.mem_append_right _ (List.mem_append_right _ hf))
          hg hA hfr_ne hstart hstop
  · by_cases hmem : f ∈ find_secrets sha t
    · exact Or.inl hmem
    · right
      have hasc : (sortKey (scanCandidates sha t)).Pairwise
          fun a b => a.start ≤ b.start :=
        (pairwise_sortKey _).imp fun {a b} h => by unfold keyLE at h; omega
      have h0 := (scanCandidates_valid hfc).1
      exact sweepGo_kept_or_overlapped hasc ((perm_sortKey _).mem_iff.mpr hfc)
        (by omega) hmem

/-- Counterexample text for C10: same-start same-length candidates from
OPENAI_KEY and GENERIC_API_KEY nested inside a quoted password value. -/
def ex10 : List Char := "password:'token=sk-aaaaaaaaaaaaaaaaaaaaa'".toList

/-- The OPENAI_KEY candidate of `ex10` (the earlier rule). -/
def opn10 : Finding :=
  { rule := "OPENAI_KEY", start := 16, stop := 40,
    replacement := mkToken "OPENAI_KEY" ((exSha (sliceN ex10 16 40)).take 8),
    match_len := 24, match_sha256 := exSha (sliceN ex10 16 40) }

/-- The GENERIC_API_KEY candidate of `ex10` (the later rule). -/
def gen10 : Finding :=
  { rule := "GENERIC_API_KEY", start := 16, stop := 40,
    replacement := mkToken "GENERIC_API_KEY" ((exSha (sliceN ex10 16 40)).take 8),
    match_len := 24, match_sha256 := exSha (sliceN ex10 16 40) }

/-- C10 counterexample: two candidates from rules 0 and 2 share start and
length, yet the detector keeps neither — in particular not the earlier
rule's candidate — because an enclosing PASSWORD finding wins the sweep,
refuting the claim as stated. -/
theorem rule_precedence_counterexample :
    opn10 ∈ ruleSeg exSha ex10 0 ∧ gen10 ∈ ruleSeg exSha ex10 2 ∧
    opn10.start = gen10.start ∧ opn10.stop = gen10.stop ∧
    opn10 ∉ find_secrets exSha ex10 ∧ gen10 ∉ find_secrets exSha ex10 := by
  decide

/-- Witness text for the amended C10: the same pair without the enclosing
quotes, so the earlier rule's candidate is kept. -/
def ex10w : List Char := "token=sk-aaaaaaaaaaaaaaaaaaaaa".toList

/-- The OPENAI_KEY candidate of `ex10w`. -/
def opn10w : Finding :=
  { rule := "OPENAI_KEY", start := 6, stop := 30,
    replacement := mkToken "OPENAI_KEY" ((exSha (sliceN ex10w 6 30)).take 8),
    match_len := 24, match_sha256 := exSha (sliceN ex10w 6 30) }

/-- The GENERIC_API_KEY candidate of `ex10w`. -/
def gen10w : Finding :=
  { rule := "GENERIC_API_KEY", start := 6, stop := 30,
    replacement := mkToken "GENERIC_API_KEY" ((exSha (sliceN ex10w 6 30)).take 8),
    match_len := 24, match_sha256 := exSha (sliceN ex10w 6 30) }

/-- Witness for the amended C10 at a concrete input. -/
theorem rule_precedence_amended_witness :
    gen10w ∉ find_secrets exSha ex10w ∧
    (opn10w ∈ find_secrets exSha ex10w ∨
      ∃ h ∈ find_secrets exSha ex10w, h ≠ opn10w ∧ h.start ≤ opn10w.start ∧
        opn10w.start < h.stop) :=
  rule_precedence_amended exSha ex10w (i := 0) (j := 2) (by omega) (by omega)
    (by decide) (by decide) (by decide) (by decide)

/-! ### Manifest secrecy (C8) -/

/-- Counterexample text for C8: a password value that spells a rule name. -/
def ex8 : List Char := "password:'PASSWORD'".toList

/-- The PASSWORD finding of `ex8`: its matched substring is the eight
characters `PASSWORD`. -/
def f8 : Finding :=
  { rule := "PASSWORD", start := 10, stop := 18,
    replacement := mkToken "PASSWORD" ((exSha (sliceN ex8 10 18)).take 8),
    match_len := 8, match_sha256 := exSha (sliceN ex8 10 18) }

/-- C8 counterexample: a recorded finding one of whose fields — the rule
name — literally equals the matched original substring, refuting the claim
that no field of the record equals the matched substring. -/
theorem manifest_secrecy_counterexample :
    f8 ∈ find_secrets exSha ex8 ∧
    f8.rule.toList = sliceN ex8 f8.start.toNat f8.stop.toNat := by
  decide

/-- C8 amended: every recorded finding carries `match_sha256`, the content
hash of the matched substring, and the substring itself is never stored:
every field is a function of the rule name, the span offsets, and the hash
alone (`match_len` is the span length, `replacement` is the token built
from the rule name and the hash's first eight characters).  The rule-name
field can, coincidentally, equal a secret that spells a rule name. -/
theorem manifest_secrecy_amended (sha : List Char → List Char) (t : List Char)
    {f : Finding} (hf : f ∈ find_secrets sha t) :
    f.match_sha256 = sha (sliceN t f.start.toNat f.stop.toNat) ∧
    f.match_len = f.stop - f.start ∧
    f.replacement = mkToken f.rule ((sha (sliceN t f.start.toNat f.stop.toNat)).take 8) ∧
    f.rule ∈ ruleNames := by
  obtain ⟨-, -, -, h4, h5, h6, h7⟩ := find_secrets_valid hf
  exact ⟨h5, h4, h6, h7⟩

/-- Witness for the amended C8 at a concrete input. -/
theorem manifest_secrecy_amended_witness :
    f8.match_sha256 = exSha (sliceN ex8 f8.start.toNat f8.stop.toNat) ∧
    f8.match_len = f8.stop - f8.start ∧
    f8.replacement = mkToken f8.rule ((exSha (sliceN ex8 f8.start.toNat f8.stop.toNat)).take 8) ∧
    f8.rule ∈ ruleNames :=
  manifest_secrecy_amended exSha ex8 (by decide)

/-! ### Idempotence / token re-matching (C9) -/

/-- The lowercase hex digits produced by `hexdigest()`. -/
def hexDigits : List Char := "0123456789abcdef".toList

theorem hexDigits_no_sg : ∀ c ∈ hexDigits, c ≠ 's' ∧ c ≠ 'g' := by decide

theorem litAt_get {t s : List Char} {i : Nat} (h : litAt t i s = true)
    {j : Nat} (hj : j < s.length) : t[i + j]? = s[j]? := by
  unfold litAt at h
  have h2 : (t.drop i).take s.length = s := by simpa using h
  calc t[i + j]? = (t.drop i)[j]? := by rw [List.getElem?_drop]
    _ = ((t.drop i).take s.length)[j]? := (List.getElem?_take_of_lt hj).symm
    _ = s[j]? := by rw [h2]

theorem runFrom_sat {p : Char → Bool} {t : List Char} {i j : Nat}
    (hj : j < runFrom p t i) : ∃ c, t[i + j]? = some c ∧ p c = true := by
  unfold runFrom at hj
  obtain ⟨r, hr⟩ := List.takeWhile_prefix (l := t.drop i) p
  refine ⟨((t.drop i).takeWhile p).get ⟨j, hj⟩, ?_, ?_⟩
  · have h1 : ((t.drop i).takeWhile p)[j]? =
        some (((t.drop i).takeWhile p).get ⟨j, hj⟩) := List.getElem?_eq_getElem hj
    have h2 : (t.drop i)[j]? = ((t.drop i).takeWhile p)[j]? := by
      conv_lhs => rw [← hr]
      exact List.getElem?_append_left hj
    rw [← List.getElem?_drop, h2, h1]
  · exact List.mem_takeWhile_imp (List.get_mem _ _ _)

theorem mkToken_length (name : String) (h8 : List Char) :
    (mkToken name h8).length = 12 + name.toList.length + h8.length := by
  simp [mkToken] <;> omega

theorem mkToken_colon9 (name : String) (h8 : List Char) :
    (mkToken name h8)[9]? = some ':' := by
  unfold mkToken
  rw [List.getElem?_append_left (by decide)]
  rfl

theorem mkToken_colon_after_name (name : String) (h8 : List Char) :
    (mkToken name h8)[10 + name.toList.length]? = some ':' := by
  unfold mkToken
  rw [List.getElem?_append_right (by simp)]
  have h10 : ("[REDACTED:".toList).length = 10 := by rfl
  rw [h10]
  have he : 10 + name.toList.length - 10 = name.toList.length := by omega
  rw [he, List.getElem?_append_right (le_refl _), Nat.sub_self]
  simp

theorem mkToken_no_char {name : String} (hname : name ∈ ruleNames)
    {h8 : List Char} (hh8 : ∀ c ∈ h8, c ∈ hexDigits)
    {x : Char} (hx : x ∈ mkToken name h8) : x ≠ 's' ∧ x ≠ 'g' := by
  unfold mkToken at hx
  rcases List.mem_append.mp hx with hx | hx
  · constructor <;> (intro hEq; subst hEq; revert hx; decide)
  · rcases List.mem_append.mp hx with hx | hx
    · fin_cases hname <;>
        (constructor <;> (intro hEq; subst hEq; revert hx; decide))
    · rcases List.mem_cons.mp hx with rfl | hx
      · exact ⟨by decide, by decide⟩
      · rcases List.mem_append.mp hx with hx | hx
        · exact hexDigits_no_sg x (hh8 x hx)
        · rcases List.mem_singleton.mp hx with rfl
          exact ⟨by decide, by decide⟩

theorem no_inside_char {T pre tok post : List Char}
    (hT : T = pre ++ (tok ++ post)) {s : Nat} {c : Char}
    (hchar : T[s]? = some c) (hc : ∀ x ∈ tok, x ≠ c)
    (h1 : pre.length ≤ s) (h2 : s < pre.length + tok.length) : False := by
  rw [hT, List.getElem?_append_right h1,
    List.getElem?_append_left (by omega)] at hchar
  exact hc c (List.getElem?_mem hchar) rfl

theorem matchOPENAI_char {t : List Char} {i s e me : Nat}
    (h : matchOPENAI t i = some (s, e, me)) : t[s]? = some 's' := by
  simp only [matchOPENAI] at h
  split at h
  next hc1 =>
    split at h
    next =>
      simp only [Option.some.injEq, Prod.mk.injEq] at h
      obtain ⟨rfl, -, -⟩ := h
      have hlit := litAt_get (Bool.and_elim_right hc1) (j := 0) (by decide)
      simpa using hlit
    next => simp at h
  next => simp at h

theorem matchGITHUB_char {t : List Char} {i s e me : Nat}
    (h : matchGITHUB t i = some (s, e, me)) : t[s]? = some 'g' := by
  simp only [matchGITHUB] at h
  split at h
  next hc1 =>
    split at h
    next =>
      simp only [Option.some.injEq, Prod.mk.injEq] at h
      obtain ⟨rfl, -, -⟩ := h
      have hlit := litAt_get (Bool.and_elim_right hc1) (j := 0) (by decide)
      simpa using hlit
    next => simp at h
  next => simp at h

theorem matchGENERIC_run {t : List Char} {i s e me : Nat}
    (h : matchGENERIC t i = some (s, e, me)) :
    16 ≤ runFrom isKeyChar t s ∧ e = s + runFrom isKeyChar t s := by
  simp only [matchGENERIC, Option.ite_none_right_eq_some] at h
  obtain ⟨-, h⟩ := h
  rcases hk : genericKeyword t i with _ | k
  · rw [hk] at h
    simp at h
  · rw [hk] at h
    simp only [Option.ite_none_right_eq_some, Option.some.injEq, Prod.mk.injEq] at h
    obtain ⟨-, -, h16, hs, he, -⟩ := h
    rw [hs] at h16 he
    exact ⟨h16, he.symm⟩

/-- C9 amended: idempotence holds for three of the four rules but not for
PASSWORD.  Wherever a redaction token occurs in a text, no OPENAI_KEY,
GITHUB_TOKEN or GENERIC_API_KEY finding of a re-scan can have its span
inside the token (the token alphabet has no `s`/`g` and no run of sixteen
key characters).  The PASSWORD rule, however, can re-match a token standing
between retained quotes, as the counterexample shows. -/
theorem idempotence_amended (sha : List Char → List Char) (pre post h8 : List Char)
    (name : String) (hname : name ∈ ruleNames)
    (hh8 : ∀ c ∈ h8, c ∈ hexDigits) (hlen8 : h8.length ≤ 8)
    {f : Finding}
    (hf : f ∈ find_secrets sha (pre ++ (mkToken name h8 ++ post)))
    (hrule : f.rule ≠ "PASSWORD") :
    ¬((pre.length : Int) ≤ f.start ∧
      f.stop ≤ (pre.length : Int) + ((mkToken name h8).length : Int)) := by
  intro hin
  obtain ⟨hin1, hin2⟩ := hin
  have hnlen : name.toList.length ≤ 15 := by fin_cases hname <;> decide
  have hfc : f ∈ scanCandidates sha (pre ++ (mkToken name h8 ++ post)) :=
    find_secrets_mem hf
  unfold scanCandidates at hfc
  simp only [List.append_assoc, List.mem_append] at hfc
  rcases hfc with hf1 | hf1 | hf1 | hf1
  · obtain ⟨s, e, ⟨j, me, hj⟩, -, rfl⟩ := ruleCandidates_shape hf1
    obtain ⟨hse, -⟩ := matchOPENAI_valid hj
    have hchar := matchOPENAI_char hj
    have hin1' : (pre.length : Int) ≤ (s : Int) := hin1
    have hin2' : ((e : Nat) : Int) ≤
        (pre.length : Int) + ((mkToken name h8).length : Int) := hin2
    have h1 : pre.length ≤ s := by exact_mod_cast hin1'
    have h2 : e ≤ pre.length + (mkToken name h8).length := by exact_mod_cast hin2'
    exact no_inside_char rfl hchar
      (fun x hx => (mkToken_no_char hname hh8 hx).1) h1 (by omega)
  · obtain ⟨s, e, ⟨j, me, hj⟩, -, rfl⟩ := ruleCandidates_shape hf1
    obtain ⟨hse, -⟩ := matchGITHUB_valid hj
    have hchar := matchGITHUB_char hj
    have hin1' : (pre.length : Int) ≤ (s : Int) := hin1
    have hin2' : ((e : Nat) : Int) ≤
        (pre.length : Int) + ((mkToken name h8).length : Int) := hin2
    have h1 : pre.length ≤ s := by exact_mod_cast hin1'
    have h2 : e ≤ pre.length + (mkToken name h8).length := by exact_mod_cast hin2'
    exact no_inside_char rfl hchar
      (fun x hx => (mkToken_no_char hname hh8 hx).2) h1 (by omega)
  · obtain ⟨s, e, ⟨j, me, hj⟩, -, rfl⟩ := ruleCandidates_shape hf1
    obtain ⟨h16, hee⟩ := matchGENERIC_run hj
    have hin1' : (pre.length : Int) ≤ (s : Int) := hin1
    have hin2' : ((e : Nat) : Int) ≤
        (pre.length : Int) + ((mkToken name h8).length : Int) := hin2
    have h1 : pre.length ≤ s := by exact_mod_cast hin1'
    have h2 : e ≤ pre.length + (mkToken name h8).length := by exact_mod_cast hin2'
    rw [mkToken_length] at h2
    have hget : ∀ d : Nat, d < runFrom isKeyChar (pre ++ (mkToken name h8 ++ post)) s →
        ∀ c, (pre ++ (mkToken name h8 ++ post))[s + d]? = some c → isKeyChar c = true := by
      intro d hd c hc
      obtain ⟨c2, hc2, hp2⟩ := runFrom_sat hd
      rw [hc] at hc2
      exact (Option.some.inj hc2) ▸ hp2
    have htok : ∀ q : Nat, q < (mkToken name h8).length →
        (pre ++ (mkToken name h8 ++ post))[pre.length + q]? = (mkToken name h8)[q]? := by
      intro q hq
      rw [List.getElem?_append_right (by omega), List.getElem?_append_left (by omega)]
      congr 1
      omega
    by_cases hcase : s ≤ pre.length + 9
    · have hd : pre.length + 9 - s < runFrom isKeyChar (pre ++ (mkToken name h8 ++ post)) s := by
        omega
      have hidx : s + (pre.length + 9 - s) = pre.length + 9 := by omega
      have hcolon : (pre ++ (mkToken name h8 ++ post))[pre.length + 9]? = some ':' := by
        rw [htok 9 (by rw [mkToken_length]; omega), mkToken_colon9]
      have := hget _ hd ':' (by rw [hidx]; exact hcolon)
      exact absurd this (by decide)
    · have hd : pre.length + 10 + name.toList.length - s <
          runFrom isKeyChar (pre ++ (mkToken name h8 ++ post)) s := by
        omega
      have hidx : s + (pre.length + 10 + name.toList.length - s) =
          pre.length + (10 + name.toList.length) := by omega
      have hcolon : (pre ++ (mkToken name h8 ++ post))[pre.length +
          (10 + name.toList.length)]? = some ':' := by
        rw [htok (10 + name.toList.length) (by rw [mkToken_length]; omega),
          mkToken_colon_after_name]
      have := hget _ hd ':' (by rw [hidx]; exact hcolon)
      exact absurd this (by decide)
  · have := ruleCandidates_rule hf1
    exact hrule this

/-- Counterexample text for C9: a quoted password. -/
def ex9 : List Char := "password: 'hunter22'".toList

/-- C9 counterexample: redact `ex9`, then re-run the detector on the
redacted output.  The injected token occupies offsets 11..39 of the
redacted text (first conjunct), and the re-scan returns a finding whose
span lies inside that token (it is the PASSWORD rule re-matching the token
between the retained quotes), refuting idempotence as claimed. -/
theorem idempotence_counterexample :
    sliceN (apply_redactions ex9 (find_secrets exSha ex9)) 11 39 =
      mkToken "PASSWORD" ((exSha (sliceN ex9 11 19)).take 8) ∧
    ∃ f ∈ find_secrets exSha (apply_redactions ex9 (find_secrets exSha ex9)),
      (11 : Int) ≤ f.start ∧ f.stop ≤ (39 : Int) := by
  decide

/-- Witness prefix for the amended C9: an OPENAI key followed by a space. -/
def ex9pre : List Char := "sk-aaaaaaaaaaaaaaaaaaaa ".toList

/-- Witness digest for the amended C9. -/
def ex9h8 : List Char := List.replicate 8 '0'

/-- The OPENAI_KEY finding the re-scan returns on the witness text
`ex9pre ++ (mkToken "GITHUB_TOKEN" ex9h8 ++ [])`. -/
def f9w : Finding :=
  { rule := "OPENAI_KEY", start := 0, stop := 23,
    replacement := mkToken "OPENAI_KEY"
      ((exSha (sliceN (ex9pre ++ (mkToken "GITHUB_TOKEN" ex9h8 ++ [])) 0 23)).take 8),
    match_len := 23,
    match_sha256 := exSha (sliceN (ex9pre ++ (mkToken "GITHUB_TOKEN" ex9h8 ++ [])) 0 23) }

/-- Witness for the amended C9 at a concrete input: the non-PASSWORD
finding of a text containing a token does not lie inside the token. -/
theorem idempotence_amended_witness :
    ¬(((ex9pre.length : Int) ≤ f9w.start) ∧
      f9w.stop ≤ (ex9pre.length : Int) + (((mkToken "GITHUB_TOKEN" ex9h8).length : Nat) : Int)) :=
  idempotence_amended exSha ex9pre [] ex9h8 "GITHUB_TOKEN"
    (by decide) (by decide) (by decide) (by decide) (by decide)

end Blacktent
